import Mathlib

/-!
# datasize: byte sizes, their canonical text form and its parser

A shallow embedding of `datasize.go`.

* `ByteSize` is `uint64`; values are natural numbers below `2 ^ 64`.
* `float64` values that occur in the program are finite and non-negative.  Such a value is
  an integer multiple of `2 ^ (-1074)`, so `F64` stores that integer multiple.  Every
  arithmetic operation is the exact operation followed by one rounding to nearest, ties to
  even, as IEEE 754 prescribes.
* The library calls (`regexp`, `strconv.ParseFloat`, `strings.TrimSpace`, `strings.ToLower`,
  `fmt.Sprintf`) are modelled by their documented behaviour on the inputs the program can
  pass to them.
-/

set_option exponentiation.threshold 8192
set_option maxRecDepth 100000

namespace datasize

/-! ## float64 -/

/-- Number of fractional binary digits of the smallest positive float64, `2 ^ (-1074)`. -/
def fracBits : Nat := 1074

/-- The float64 value 1 counted in multiples of `2 ^ (-1074)`. -/
def one : Nat := 2 ^ fracBits

/-- A finite non-negative float64: the value is `units / 2 ^ 1074`. -/
structure F64 where
  units : Nat
deriving DecidableEq, Repr

/-- Quotient `p / q` rounded to the nearest integer, ties to the even one. -/
def rne (p q : Nat) : Nat :=
  let f := p / q
  let r := p % q
  if 2 * r < q then f
  else if q < 2 * r then f + 1
  else if f % 2 = 0 then f
  else f + 1

/-- Loop of `bitLen`: 64 bits at a time while the number is large, then bit by bit. -/
def bitLenAux : Nat → Nat → Nat → Nat
  | 0, _, acc => acc
  | fuel + 1, n, acc =>
    if n = 0 then acc
    else if 2 ^ 64 ≤ n then bitLenAux fuel (n / 2 ^ 64) (acc + 64)
    else bitLenAux fuel (n / 2) (acc + 1)

/-- Length of the binary expansion of `n` (0 for 0). -/
def bitLen (n : Nat) : Nat := bitLenAux n n 0

/-- Rounding of the rational `p / q`, counted in multiples of `2 ^ (-1074)`, to a float64
with unbounded exponent: 53 significant bits, nearest, ties to even.  Below `2 ^ 53`
multiples the spacing is one multiple (subnormals and the first normal binade). -/
def F64.round (p q : Nat) : F64 :=
  let sh := bitLen (p / q) - 53
  ⟨rne p (q * 2 ^ sh) * 2 ^ sh⟩

/-- Conversion `float64(n)` of an unsigned integer. -/
def F64.ofNat (n : Nat) : F64 := F64.round (n * one) 1

/-- Float64 product `x * y`.  (Operands in this program are bounded by about `2 ^ 64`, so
the product never overflows to infinity.) -/
def F64.mul (x y : F64) : F64 := F64.round (x.units * y.units) one

/-- Float64 quotient `x / y` for `y ≠ 0`. -/
def F64.div (x y : F64) : F64 := F64.round (x.units * one) y.units

/-- Float64 sum `x + y`. -/
def F64.add (x y : F64) : F64 := F64.round (x.units + y.units) 1

/-- Comparison `x > y`. -/
def F64.gt (x y : F64) : Bool := decide (y.units < x.units)

/-- A float64 is a whole number. -/
def F64.isWhole (x : F64) : Bool := decide (x.units % one = 0)

/-- Go leaves the result of a non-constant conversion from a floating-point value to an
integer type implementation-dependent when the value does not fit the integer type.  A
`Target` fixes that result for `uint64`. -/
structure Target where
  outOfRange : F64 → Nat

/-- A target whose conversion saturates at the largest `uint64`. -/
def Target.saturating : Target := ⟨fun _ => 2 ^ 64 - 1⟩

/-- A target whose conversion yields `1 << 63` for every operand that does not fit. -/
def Target.signBit : Target := ⟨fun _ => 2 ^ 63⟩

/-- Conversion `uint64(x)`: truncation toward zero when the value fits, otherwise whatever
the target yields. -/
def F64.toUint64 (tg : Target) (x : F64) : Nat :=
  if x.units / one < 2 ^ 64 then x.units / one else tg.outOfRange x % 2 ^ 64

/-! ## The package -/

/-- Declaration `type ByteSize uint64`.  Byte sizes are written as `Nat` in the signatures
below; the functions are used on values below `2 ^ 64`. -/
abbrev ByteSize := Nat

def B : Nat := 1

def KB : Nat := 1000 * B
def MB : Nat := 1000 * KB
def GB : Nat := 1000 * MB
def TB : Nat := 1000 * GB
def PB : Nat := 1000 * TB
def EB : Nat := 1000 * PB

def KiB : Nat := B <<< 10
def MiB : Nat := KiB <<< 10
def GiB : Nat := MiB <<< 10
def TiB : Nat := GiB <<< 10
def PiB : Nat := TiB <<< 10
def EiB : Nat := PiB <<< 10

def fnUnmarshalText : String := "UnmarshalText"

/-- Constant `math.MaxUint64`. -/
def MaxUint64 : Nat := 2 ^ 64 - 1

/-- The two error values of `strconv` the parser reports. -/
inductive ErrKind where
  | ErrSyntax
  | ErrRange
deriving DecidableEq, Repr

/-- Record `strconv.NumError`. -/
structure NumError where
  Func : String
  Num : String
  Err : ErrKind
deriving DecidableEq, Repr

/-! ### Library functions -/

/-- Character class `[A-Za-z ]` of the third group of `byteSizeRE`. -/
def isUnitChar (c : Char) : Bool := c.isAlpha || c == ' '

/-- Result of `FindStringSubmatch`: `ss[0]`, `ss[1]`, `ss[2]`, `ss[3]`. -/
structure Submatch where
  whole : List Char
  g1 : List Char
  g2 : List Char
  g3 : List Char
deriving DecidableEq, Repr

/-- Second group `(\.[0-9]*)?` at the head of `r`: a `.` and the digits after it, or the
empty text when the group does not take part in the match. -/
def fracGroup (r : List Char) : List Char :=
  match r with
  | '.' :: t => '.' :: t.takeWhile Char.isDigit
  | _ => []

/-- A match of `([0-9]*)(\.[0-9]*)?([A-Za-z ]+)` starting at the head of `s`.  The greedy
attempt is the only one that can succeed: after giving back a digit, or after skipping a
present second group, the next character is a digit or `.`, which the third group refuses. -/
def matchHere (s : List Char) : Option Submatch :=
  let g1 := s.takeWhile Char.isDigit
  let r1 := s.dropWhile Char.isDigit
  let g2 := fracGroup r1
  let r2 := r1.drop g2.length
  let g3 := r2.takeWhile isUnitChar
  if g3 = [] then none else some ⟨g1 ++ g2 ++ g3, g1, g2, g3⟩

/-- Call `byteSizeRE.FindStringSubmatch(s)`: the leftmost match. -/
def FindStringSubmatch : List Char → Option Submatch
  | [] => none
  | c :: cs =>
    match matchHere (c :: cs) with
    | some m => some m
    | none => FindStringSubmatch cs

/-- Value of a string of decimal digits. -/
def digitsVal (ds : List Char) : Nat :=
  ds.foldl (fun a c => 10 * a + (c.toNat - 48)) 0

/-- Call `strconv.ParseFloat(s, 64)` on the strings the parser passes to it, which consist
of digits and at most one `.`: the correctly rounded float64, `ErrSyntax` when there is no
digit, `ErrRange` when the rounded value is not finite.  A value too small for float64
rounds to zero without error. -/
def ParseFloat (s : List Char) : Except ErrKind F64 :=
  let ip := s.takeWhile Char.isDigit
  let r := s.dropWhile Char.isDigit
  let fp : Option (List Char) := match r with
    | [] => some []
    | '.' :: t => if t.all Char.isDigit then some t else none
    | _ => none
  match fp with
  | none => .error .ErrSyntax
  | some fp =>
    if ip = [] ∧ fp = [] then .error .ErrSyntax
    else
      let x := F64.round (digitsVal (ip ++ fp) * one) (10 ^ fp.length)
      if 2 ^ 1024 * one ≤ x.units then .error .ErrRange else .ok x

/-- White space in the sense of `unicode.IsSpace`. -/
def isSpace (c : Char) : Bool :=
  let n := c.toNat
  n == 32 || (9 ≤ n && n ≤ 13) || n == 0x85 || n == 0xA0 || n == 0x1680 ||
  (0x2000 ≤ n && n ≤ 0x200a) || n == 0x2028 || n == 0x2029 || n == 0x202f ||
  n == 0x205f || n == 0x3000

/-- Call `strings.TrimSpace`. -/
def TrimSpace (s : List Char) : List Char :=
  ((s.dropWhile isSpace).reverse.dropWhile isSpace).reverse

/-- Call `strings.ToLower` on the ASCII text the parser passes to it. -/
def ToLower (s : List Char) : List Char := s.map Char.toLower

/-- Decimal digit character of `d < 10`. -/
def digitChar (d : Nat) : Char := Char.ofNat (48 + d)

/-- Loop of `fmtNat`, least significant digit first. -/
def fmtNatAux : Nat → Nat → List Char → List Char
  | 0, _, acc => acc
  | fuel + 1, n, acc =>
    if n < 10 then digitChar n :: acc
    else fmtNatAux fuel (n / 10) (digitChar (n % 10) :: acc)

/-- Verb `%d` of `fmt.Sprintf` on an unsigned integer. -/
def fmtNat (n : Nat) : List Char := fmtNatAux (n + 1) n []

/-- Verb `%.2f` of `fmt.Sprintf` on a finite non-negative float64: the exact value rounded
to two decimals, ties to even. -/
def fmtFloat2 (x : F64) : List Char :=
  let h := rne (x.units * 100) one
  fmtNat (h / 100) ++ ['.', digitChar (h / 10 % 10), digitChar (h % 10)]

/-! ### Unit accessors -/

/-- Shared shape of the accessors: `v := b / U; r := b % U; float64(v) + float64(r)/float64(U)`. -/
def inUnit (b U : Nat) : F64 :=
  let v := b / U
  let r := b % U
  F64.add (F64.ofNat v) (F64.div (F64.ofNat r) (F64.ofNat U))

def Bytes (b : Nat) : Nat := b
def Kilobytes (b : Nat) : F64 := inUnit b KB
def Megabytes (b : Nat) : F64 := inUnit b MB
def Gigabytes (b : Nat) : F64 := inUnit b GB
def Terabytes (b : Nat) : F64 := inUnit b TB
def Petabytes (b : Nat) : F64 := inUnit b PB
def Exabytes (b : Nat) : F64 := inUnit b EB
def Kibibytes (b : Nat) : F64 := inUnit b KiB
def Mebibytes (b : Nat) : F64 := inUnit b MiB
def Gibibytes (b : Nat) : F64 := inUnit b GiB
def Tebibytes (b : Nat) : F64 := inUnit b TiB
def Pebibytes (b : Nat) : F64 := inUnit b PiB
def Exbibytes (b : Nat) : F64 := inUnit b EiB

/-! ### Formatting -/

/-- Method `String` of `ByteSize`. -/
def ByteSize.String (b : Nat) : String :=
  if b = 0 then "0B"
  else if b % EB = 0 then ⟨fmtNat (b / EB) ++ "EB".data⟩
  else if EiB ≤ b then ⟨fmtFloat2 (Exbibytes b) ++ "EiB".data⟩
  else if b % PB = 0 then ⟨fmtNat (b / PB) ++ "PB".data⟩
  else if PiB ≤ b then ⟨fmtFloat2 (Pebibytes b) ++ "PiB".data⟩
  else if b % TB = 0 then ⟨fmtNat (b / TB) ++ "TB".data⟩
  else if TiB ≤ b then ⟨fmtFloat2 (Tebibytes b) ++ "TiB".data⟩
  else if b % GB = 0 then ⟨fmtNat (b / GB) ++ "GB".data⟩
  else if GiB ≤ b then ⟨fmtFloat2 (Gibibytes b) ++ "GiB".data⟩
  else if b % MB = 0 then ⟨fmtNat (b / MB) ++ "MB".data⟩
  else if MiB ≤ b then ⟨fmtFloat2 (Mebibytes b) ++ "MiB".data⟩
  else if b % KB = 0 then ⟨fmtNat (b / KB) ++ "KB".data⟩
  else if KiB ≤ b then ⟨fmtFloat2 (Kibibytes b) ++ "KiB".data⟩
  else ⟨fmtNat b ++ "B".data⟩

/-- Method `MarshalText` of `ByteSize`: the text and a nil error. -/
def MarshalText (b : Nat) : String × Option NumError :=
  (ByteSize.String b, none)

/-! ### Parsing -/

/-- The threshold `math.MaxUint64/float64(U)` of the range check.  The constant
`math.MaxUint64` takes the type float64 of the other operand, and the typed constant
quotient is rounded to float64. -/
def rangeLimit (U : Nat) : F64 := F64.div (F64.ofNat MaxUint64) (F64.ofNat U)

/-- Body of every scaled case of the unit switch:
`if num > math.MaxUint64/float64(U) { return ErrRange }; num *= float64(U)`. -/
def scaleBy (num : F64) (U : Nat) : Except ErrKind F64 :=
  if F64.gt num (rangeLimit U) then .error .ErrRange
  else .ok (F64.mul num (F64.ofNat U))

/-- The switch on the lower-cased unit: the scaled number, or the error of the case. -/
def unitSwitch (unit : String) (num : F64) : Except ErrKind F64 :=
  if unit ∈ ["", "b", "byte"] then .ok num
  else if unit ∈ ["k", "kb", "kilo", "kilobyte", "kilobytes"] then scaleBy num KB
  else if unit ∈ ["m", "mb", "mega", "megabyte", "megabytes"] then scaleBy num MB
  else if unit ∈ ["g", "gb", "giga", "gigabyte", "gigabytes"] then scaleBy num GB
  else if unit ∈ ["t", "tb", "tera", "terabyte", "terabytes"] then scaleBy num TB
  else if unit ∈ ["p", "pb", "peta", "petabyte", "petabytes"] then scaleBy num PB
  else if unit ∈ ["e", "eb", "exa", "exabyte", "exabytes"] then scaleBy num EB
  else if unit ∈ ["ki", "kib", "kibi", "kibibyte", "kibibytes"] then scaleBy num KiB
  else if unit ∈ ["mi", "mib", "mebi", "mebibyte", "mebibytes"] then scaleBy num MiB
  else if unit ∈ ["gi", "gib", "gibi", "gibibyte", "gibibytes"] then scaleBy num GiB
  else if unit ∈ ["ti", "tib", "tebi", "tebibyte", "tebibytes"] then scaleBy num TiB
  else if unit ∈ ["pi", "pib", "pebi", "pebibyte", "pebibytes"] then scaleBy num PiB
  else if unit ∈ ["ei", "eib", "exbi", "exbibyte", "exbibytes"] then scaleBy num EiB
  else .error .ErrSyntax

/-- The unit spellings the first switch rejects before lower-casing. -/
def reserved : List String :=
  ["Kb", "Mb", "Gb", "Tb", "Pb", "Eb", "Kib", "Mib", "Gib", "Tib", "Pib", "Eib"]

/-- Lines 170 to 271 of `UnmarshalText`, after the regular expression has matched the whole
of `s`: `g1`, `g2`, `g3` are `ss[1]`, `ss[2]`, `ss[3]`.  The receiver holds `b` before the
call; the result is the receiver after the call together with the returned error. -/
def unmarshalGroups (tg : Target) (b : Nat) (s : String) (g1 g2 g3 : List Char) :
    Nat × Option NumError :=
  match ParseFloat (g1 ++ g2) with
  | .error e => (b, some ⟨fnUnmarshalText, s, e⟩)
  | .ok num =>
    let unit : String := ⟨TrimSpace g3⟩
    if unit ∈ reserved then (b, some ⟨fnUnmarshalText, s, .ErrSyntax⟩)
    else
      let unit : String := ⟨ToLower unit.data⟩
      match unitSwitch unit num with
      | .error e => (b, some ⟨fnUnmarshalText, s, e⟩)
      | .ok num =>
        let v := F64.toUint64 tg num
        if F64.ofNat v ≠ num then (b, some ⟨fnUnmarshalText, s, .ErrSyntax⟩)
        else (v, none)

/-- Method `UnmarshalText` of `*ByteSize`.  The receiver holds `b` before the call; the
result is the receiver after the call together with the returned error (`none` for nil). -/
def UnmarshalText (tg : Target) (b : Nat) (t : String) : Nat × Option NumError :=
  let s := t
  match FindStringSubmatch s.data with
  | none => (b, some ⟨fnUnmarshalText, s, .ErrSyntax⟩)
  | some ss =>
    if ss.whole ≠ s.data then (b, some ⟨fnUnmarshalText, s, .ErrSyntax⟩)
    else unmarshalGroups tg b s ss.g1 ss.g2 ss.g3

/-- Function `Parse`: `var v Nat; err := v.UnmarshalText(t); return v, err`. -/
def Parse (tg : Target) (t : String) : Nat × Option NumError :=
  UnmarshalText tg 0 t

/-- Function `ParseString`. -/
def ParseString (tg : Target) (s : String) : Nat × Option NumError :=
  Parse tg s

/-- Function `MustParse`; `.error e` stands for `panic(e)`. -/
def MustParse (tg : Target) (t : String) : Except NumError Nat :=
  match Parse tg t with
  | (_, some err) => .error err
  | (v, none) => .ok v

/-- Function `MustParseString`. -/
def MustParseString (tg : Target) (s : String) : Except NumError Nat :=
  MustParse tg s

/-! ## Vocabulary of the claims -/

/-- Decimal unit of tier `k`: `KB, MB, GB, TB, PB, EB` for `k = 1, ..., 6`. -/
def decUnit : Nat → Nat
  | 1 => KB
  | 2 => MB
  | 3 => GB
  | 4 => TB
  | 5 => PB
  | 6 => EB
  | _ => B

/-- Binary unit of tier `k`: `KiB, MiB, GiB, TiB, PiB, EiB` for `k = 1, ..., 6`. -/
def binUnit : Nat → Nat
  | 1 => KiB
  | 2 => MiB
  | 3 => GiB
  | 4 => TiB
  | 5 => PiB
  | 6 => EiB
  | _ => B

/-- Two-letter abbreviation of the decimal unit of tier `k`. -/
def decAbbrev : Nat → String
  | 1 => "KB"
  | 2 => "MB"
  | 3 => "GB"
  | 4 => "TB"
  | 5 => "PB"
  | 6 => "EB"
  | _ => "B"

/-- Three-letter abbreviation of the binary unit of tier `k`. -/
def binAbbrev : Nat → String
  | 1 => "KiB"
  | 2 => "MiB"
  | 3 => "GiB"
  | 4 => "TiB"
  | 5 => "PiB"
  | 6 => "EiB"
  | _ => "B"

/-- The decimal form of `b` at tier `k`: the integer quotient followed by the abbreviation. -/
def decimalForm (k : Nat) (b : Nat) : String :=
  ⟨fmtNat (b / decUnit k) ++ (decAbbrev k).data⟩

/-- The text `s` uses the binary unit of tier `k`: it ends in that unit's abbreviation. -/
def usesBinary (k : Nat) (s : String) : Prop :=
  (binAbbrev k).data <:+ s.data

/-- The text `s` ends in a bare `B`: the character before the final `B` is not a letter. -/
def endsInBareB (s : String) : Prop :=
  ∃ pre c, s.data = pre ++ [c, 'B'] ∧ c.isAlpha = false

/-- The case of the switch in `String` that `b` selects. -/
inductive Form where
  | zero
  | dec (k : Nat)
  | bin (k : Nat)
  | bytes
deriving DecidableEq, Repr

/-- The case selected by `b`, in the order of the switch. -/
def form (b : Nat) : Form :=
  if b = 0 then .zero
  else if b % EB = 0 then .dec 6
  else if EiB ≤ b then .bin 6
  else if b % PB = 0 then .dec 5
  else if PiB ≤ b then .bin 5
  else if b % TB = 0 then .dec 4
  else if TiB ≤ b then .bin 4
  else if b % GB = 0 then .dec 3
  else if GiB ≤ b then .bin 3
  else if b % MB = 0 then .dec 2
  else if MiB ≤ b then .bin 2
  else if b % KB = 0 then .dec 1
  else if KiB ≤ b then .bin 1
  else .bytes

/-- The text each case of the switch produces. -/
def render (b : Nat) : Form → String
  | .zero => "0B"
  | .dec k => decimalForm k b
  | .bin k => ⟨fmtFloat2 (inUnit b (binUnit k)) ++ (binAbbrev k).data⟩
  | .bytes => ⟨fmtNat b ++ "B".data⟩

/-- Text of the fraction of a number text: nothing, or a `.` followed by digits. -/
def fracText : Option (List Char) → List Char
  | none => []
  | some fp => '.' :: fp

/-- A number text: the digits `ip`, optionally followed by `.` and the digits `fp`. -/
def numText (ip : List Char) (fr : Option (List Char)) : List Char := ip ++ fracText fr

/-- Every character of the text is a decimal digit. -/
def allDigits (l : List Char) : Prop := ∀ c ∈ l, c.isDigit = true

/-- The fraction of a number text consists of digits. -/
def fracDigits : Option (List Char) → Prop
  | none => True
  | some fp => allDigits fp

/-- Every character of the text is a letter or a space. -/
def allUnitChars (l : List Char) : Prop := ∀ c ∈ l, isUnitChar c = true

/-- The error kind of a result, `none` on success. -/
def errKind (r : Nat × Option NumError) : Option ErrKind := r.2.map NumError.Err

/-- The alias table of the specification: the spellings of each row and the unit of the
row in bytes. -/
def aliasTable : List (List String × Nat) :=
  [(["", "b", "byte"], B),
   (["k", "kb", "kilo", "kilobyte", "kilobytes"], KB),
   (["m", "mb", "mega", "megabyte", "megabytes"], MB),
   (["g", "gb", "giga", "gigabyte", "gigabytes"], GB),
   (["t", "tb", "tera", "terabyte", "terabytes"], TB),
   (["p", "pb", "peta", "petabyte", "petabytes"], PB),
   (["e", "eb", "exa", "exabyte", "exabytes"], EB),
   (["ki", "kib", "kibi", "kibibyte", "kibibytes"], KiB),
   (["mi", "mib", "mebi", "mebibyte", "mebibytes"], MiB),
   (["gi", "gib", "gibi", "gibibyte", "gibibytes"], GiB),
   (["ti", "tib", "tebi", "tebibyte", "tebibytes"], TiB),
   (["pi", "pib", "pebi", "pebibyte", "pebibytes"], PiB),
   (["ei", "eib", "exbi", "exbibyte", "exbibytes"], EiB)]

/-- The spelling `a` is a non-empty spelling of a row of the alias table with unit `U`. -/
def isAlias (a : String) (U : Nat) : Prop :=
  ∃ row ∈ aliasTable, a ∈ row.1 ∧ row.2 = U ∧ a ≠ ""

/-- Numerator of the value of the number text `numText ip fr`. -/
def numNumer (ip : List Char) (fr : Option (List Char)) : Nat := digitsVal (ip ++ fr.getD [])

/-- Denominator of the value of the number text `numText ip fr`, a power of ten. -/
def numDenom (fr : Option (List Char)) : Nat := 10 ^ (fr.getD []).length

/-- The number text has at least one digit. -/
def hasDigit (ip : List Char) (fr : Option (List Char)) : Prop := ¬ (ip = [] ∧ fr.getD [] = [])

/-- The rational `p / q` is exactly a float64: counted in multiples of `2 ^ (-1074)` it is
`M * 2 ^ K` with a significand `M` below `2 ^ 53`. -/
def isFloat64 (p q : Nat) : Prop := ∃ M K, M < 2 ^ 53 ∧ p * one = q * (M * 2 ^ K)

/-- The float64 value the parser computes for the number text `numText ip fr` scaled by the
unit `U`: the float64 nearest to the number, multiplied in float64 by `float64(U)` (no
multiplication for the byte row). -/
def floatProduct (ip : List Char) (fr : Option (List Char)) (U : Nat) : F64 :=
  if U = 1 then F64.round (numNumer ip fr * one) (numDenom fr)
  else F64.mul (F64.round (numNumer ip fr * one) (numDenom fr)) (F64.ofNat U)

/-- The number text is out of the float64 range: `strconv.ParseFloat` answers `ErrRange`. -/
def outOfFloatRange (n : List Char) : Bool :=
  match ParseFloat n with
  | .error .ErrRange => true
  | _ => false

/-- The last three characters of a text, last one first. -/
def tailSig (s : String) : List Char := s.data.reverse.take 3

/-! ## Decimal digits -/

theorem fmtNatAux_fuel (f1 : Nat) : ∀ (f2 n : Nat) (acc : List Char), n < f1 → n < f2 →
    fmtNatAux f1 n acc = fmtNatAux f2 n acc := by
  induction f1 with
  | zero => intro f2 n acc h; omega
  | succ f1 ih =>
    intro f2 n acc h1 h2
    cases f2 with
    | zero => omega
    | succ f2 =>
      simp only [fmtNatAux]
      split
      · rfl
      · exact ih f2 (n / 10) _ (by omega) (by omega)

theorem fmtNatAux_acc (f : Nat) : ∀ (n : Nat) (acc : List Char), n < f →
    fmtNatAux f n acc = fmtNatAux f n [] ++ acc := by
  induction f with
  | zero => intro n acc h; omega
  | succ f ih =>
    intro n acc h
    simp only [fmtNatAux]
    split
    · rfl
    · rw [ih (n / 10) (digitChar (n % 10) :: acc) (by omega),
        ih (n / 10) [digitChar (n % 10)] (by omega)]
      simp

theorem fmtNat_lt (n : Nat) (h : n < 10) : fmtNat n = [digitChar n] := by
  simp [fmtNat, fmtNatAux, h]

theorem fmtNat_ge (n : Nat) (h : 10 ≤ n) :
    fmtNat n = fmtNat (n / 10) ++ [digitChar (n % 10)] := by
  have h1 : ¬ n < 10 := by omega
  have h2 : fmtNatAux (n + 1) n [] = fmtNatAux n (n / 10) [digitChar (n % 10)] := by
    simp [fmtNatAux, h1]
  unfold fmtNat
  rw [h2, fmtNatAux_acc n (n / 10) _ (by omega),
    fmtNatAux_fuel n (n / 10 + 1) (n / 10) [] (by omega) (by omega)]

theorem digitChar_isDigit (d : Nat) (h : d < 10) : (digitChar d).isDigit = true := by
  interval_cases d <;> decide

theorem digitChar_toNat (d : Nat) (h : d < 10) : (digitChar d).toNat - 48 = d := by
  interval_cases d <;> decide

theorem digitChar_isAlpha (d : Nat) (h : d < 10) : (digitChar d).isAlpha = false := by
  interval_cases d <;> decide

theorem fmtNat_last (n : Nat) : ∃ pre, fmtNat n = pre ++ [digitChar (n % 10)] := by
  by_cases h : n < 10
  · exact ⟨[], by rw [fmtNat_lt n h, Nat.mod_eq_of_lt h]; rfl⟩
  · exact ⟨fmtNat (n / 10), fmtNat_ge n (by omega)⟩

theorem fmtNat_digits (n : Nat) : ∀ c ∈ fmtNat n, c.isDigit = true := by
  induction n using Nat.strong_induction_on with
  | _ n ih =>
    by_cases h : n < 10
    · rw [fmtNat_lt n h]
      intro c hc
      simp only [List.mem_singleton] at hc
      subst hc
      exact digitChar_isDigit n h
    · rw [fmtNat_ge n (by omega)]
      intro c hc
      rcases List.mem_append.1 hc with hc | hc
      · exact ih (n / 10) (by omega) c hc
      · simp only [List.mem_singleton] at hc
        subst hc
        exact digitChar_isDigit _ (Nat.mod_lt _ (by decide))

theorem fmtNat_ne_nil (n : Nat) : fmtNat n ≠ [] := by
  obtain ⟨pre, h⟩ := fmtNat_last n
  rw [h]; simp

theorem digitsVal_append_singleton (l : List Char) (c : Char) :
    digitsVal (l ++ [c]) = 10 * digitsVal l + (c.toNat - 48) := by
  simp [digitsVal, List.foldl_append]

theorem digitsVal_fmtNat (n : Nat) : digitsVal (fmtNat n) = n := by
  induction n using Nat.strong_induction_on with
  | _ n ih =>
    by_cases h : n < 10
    · rw [fmtNat_lt n h]
      simp only [digitsVal, List.foldl_cons, List.foldl_nil]
      have := digitChar_toNat n h
      omega
    · rw [fmtNat_ge n (by omega), digitsVal_append_singleton, ih (n / 10) (by omega),
        digitChar_toNat _ (Nat.mod_lt _ (by decide))]
      omega

/-! ## The switch of `String` -/

theorem String_eq_render (b : Nat) : ByteSize.String b = render b (form b) := by
  unfold form
  simp only [apply_ite (render b)]
  rfl

theorem form_eq (b : Nat) : form b =
    if b = 0 then .zero
    else if b % 1000000000000000000 = 0 then .dec 6
    else if 1152921504606846976 ≤ b then .bin 6
    else if b % 1000000000000000 = 0 then .dec 5
    else if 1125899906842624 ≤ b then .bin 5
    else if b % 1000000000000 = 0 then .dec 4
    else if 1099511627776 ≤ b then .bin 4
    else if b % 1000000000 = 0 then .dec 3
    else if 1073741824 ≤ b then .bin 3
    else if b % 1000000 = 0 then .dec 2
    else if 1048576 ≤ b then .bin 2
    else if b % 1000 = 0 then .dec 1
    else if 1024 ≤ b then .bin 1
    else .bytes := rfl

theorem decUnit_values : decUnit 1 = 1000 ∧ decUnit 2 = 1000000 ∧ decUnit 3 = 1000000000 ∧
    decUnit 4 = 1000000000000 ∧ decUnit 5 = 1000000000000000 ∧
    decUnit 6 = 1000000000000000000 ∧ decUnit 7 = 1 := by decide

theorem binUnit_values : binUnit 1 = 1024 ∧ binUnit 2 = 1048576 ∧ binUnit 3 = 1073741824 ∧
    binUnit 4 = 1099511627776 ∧ binUnit 5 = 1125899906842624 ∧
    binUnit 6 = 1152921504606846976 ∧ binUnit 7 = 1 := by decide

theorem form_spec (b : Nat) :
    (form b = .zero ∧ b = 0) ∨
    (form b = .dec 6 ∧ ¬ b = 0 ∧ b % 1000000000000000000 = 0) ∨
    (form b = .bin 6 ∧ ¬ b = 0 ∧ ¬ b % 1000000000000000000 = 0 ∧ 1152921504606846976 ≤ b) ∨
    (form b = .dec 5 ∧ ¬ b = 0 ∧ ¬ b % 1000000000000000000 = 0 ∧ ¬ 1152921504606846976 ≤ b ∧ b % 1000000000000000 = 0) ∨
    (form b = .bin 5 ∧ ¬ b = 0 ∧ ¬ b % 1000000000000000000 = 0 ∧ ¬ 1152921504606846976 ≤ b ∧ ¬ b % 1000000000000000 = 0 ∧ 1125899906842624 ≤ b) ∨
    (form b = .dec 4 ∧ ¬ b = 0 ∧ ¬ b % 1000000000000000000 = 0 ∧ ¬ 1152921504606846976 ≤ b ∧ ¬ b % 1000000000000000 = 0 ∧ ¬ 1125899906842624 ≤ b ∧ b % 1000000000000 = 0) ∨
    (form b = .bin 4 ∧ ¬ b = 0 ∧ ¬ b % 1000000000000000000 = 0 ∧ ¬ 1152921504606846976 ≤ b ∧ ¬ b % 1000000000000000 = 0 ∧ ¬ 1125899906842624 ≤ b ∧ ¬ b % 1000000000000 = 0 ∧ 1099511627776 ≤ b) ∨
    (form b = .dec 3 ∧ ¬ b = 0 ∧ ¬ b % 1000000000000000000 = 0 ∧ ¬ 1152921504606846976 ≤ b ∧ ¬ b % 1000000000000000 = 0 ∧ ¬ 1125899906842624 ≤ b ∧ ¬ b % 1000000000000 = 0 ∧ ¬ 1099511627776 ≤ b ∧ b % 1000000000 = 0) ∨
    (form b = .bin 3 ∧ ¬ b = 0 ∧ ¬ b % 1000000000000000000 = 0 ∧ ¬ 1152921504606846976 ≤ b ∧ ¬ b % 1000000000000000 = 0 ∧ ¬ 1125899906842624 ≤ b ∧ ¬ b % 1000000000000 = 0 ∧ ¬ 1099511627776 ≤ b ∧ ¬ b % 1000000000 = 0 ∧ 1073741824 ≤ b) ∨
    (form b = .dec 2 ∧ ¬ b = 0 ∧ ¬ b % 1000000000000000000 = 0 ∧ ¬ 1152921504606846976 ≤ b ∧ ¬ b % 1000000000000000 = 0 ∧ ¬ 1125899906842624 ≤ b ∧ ¬ b % 1000000000000 = 0 ∧ ¬ 1099511627776 ≤ b ∧ ¬ b % 1000000000 = 0 ∧ ¬ 1073741824 ≤ b ∧ b % 1000000 = 0) ∨
    (form b = .bin 2 ∧ ¬ b = 0 ∧ ¬ b % 1000000000000000000 = 0 ∧ ¬ 1152921504606846976 ≤ b ∧ ¬ b % 1000000000000000 = 0 ∧ ¬ 1125899906842624 ≤ b ∧ ¬ b % 1000000000000 = 0 ∧ ¬ 1099511627776 ≤ b ∧ ¬ b % 1000000000 = 0 ∧ ¬ 1073741824 ≤ b ∧ ¬ b % 1000000 = 0 ∧ 1048576 ≤ b) ∨
    (form b = .dec 1 ∧ ¬ b = 0 ∧ ¬ b % 1000000000000000000 = 0 ∧ ¬ 1152921504606846976 ≤ b ∧ ¬ b % 1000000000000000 = 0 ∧ ¬ 1125899906842624 ≤ b ∧ ¬ b % 1000000000000 = 0 ∧ ¬ 1099511627776 ≤ b ∧ ¬ b % 1000000000 = 0 ∧ ¬ 1073741824 ≤ b ∧ ¬ b % 1000000 = 0 ∧ ¬ 1048576 ≤ b ∧ b % 1000 = 0) ∨
    (form b = .bin 1 ∧ ¬ b = 0 ∧ ¬ b % 1000000000000000000 = 0 ∧ ¬ 1152921504606846976 ≤ b ∧ ¬ b % 1000000000000000 = 0 ∧ ¬ 1125899906842624 ≤ b ∧ ¬ b % 1000000000000 = 0 ∧ ¬ 1099511627776 ≤ b ∧ ¬ b % 1000000000 = 0 ∧ ¬ 1073741824 ≤ b ∧ ¬ b % 1000000 = 0 ∧ ¬ 1048576 ≤ b ∧ ¬ b % 1000 = 0 ∧ 1024 ≤ b) ∨
    (form b = .bytes ∧ ¬ b = 0 ∧ ¬ b % 1000000000000000000 = 0 ∧ ¬ 1152921504606846976 ≤ b ∧ ¬ b % 1000000000000000 = 0 ∧ ¬ 1125899906842624 ≤ b ∧ ¬ b % 1000000000000 = 0 ∧ ¬ 1099511627776 ≤ b ∧ ¬ b % 1000000000 = 0 ∧ ¬ 1073741824 ≤ b ∧ ¬ b % 1000000 = 0 ∧ ¬ 1048576 ≤ b ∧ ¬ b % 1000 = 0 ∧ ¬ 1024 ≤ b) := by
  rw [form_eq]
  by_cases h0 : b = 0
  · exact Or.inl ⟨if_pos h0, h0⟩
  rw [if_neg h0]
  by_cases h1 : b % 1000000000000000000 = 0
  · exact Or.inr <| Or.inl ⟨if_pos h1, h0, h1⟩
  rw [if_neg h1]
  by_cases h2 : 1152921504606846976 ≤ b
  · exact Or.inr <| Or.inr <| Or.inl ⟨if_pos h2, h0, h1, h2⟩
  rw [if_neg h2]
  by_cases h3 : b % 1000000000000000 = 0
  · exact Or.inr <| Or.inr <| Or.inr <| Or.inl ⟨if_pos h3, h0, h1, h2, h3⟩
  rw [if_neg h3]
  by_cases h4 : 1125899906842624 ≤ b
  · exact Or.inr <| Or.inr <| Or.inr <| Or.inr <| Or.inl ⟨if_pos h4, h0, h1, h2, h3, h4⟩
  rw [if_neg h4]
  by_cases h5 : b % 1000000000000 = 0
  · exact Or.inr <| Or.inr <| Or.inr <| Or.inr <| Or.inr <| Or.inl ⟨if_pos h5, h0, h1, h2, h3, h4, h5⟩
  rw [if_neg h5]
  by_cases h6 : 1099511627776 ≤ b
  · exact Or.inr <| Or.inr <| Or.inr <| Or.inr <| Or.inr <| Or.inr <| Or.inl ⟨if_pos h6, h0, h1, h2, h3, h4, h5, h6⟩
  rw [if_neg h6]
  by_cases h7 : b % 1000000000 = 0
  · exact Or.inr <| Or.inr <| Or.inr <| Or.inr <| Or.inr <| Or.inr <| Or.inr <| Or.inl ⟨if_pos h7, h0, h1, h2, h3, h4, h5, h6, h7⟩
  rw [if_neg h7]
  by_cases h8 : 1073741824 ≤ b
  · exact Or.inr <| Or.inr <| Or.inr <| Or.inr <| Or.inr <| Or.inr <| Or.inr <| Or.inr <| Or.inl ⟨if_pos h8, h0, h1, h2, h3, h4, h5, h6, h7, h8⟩
  rw [if_neg h8]
  by_cases h9 : b % 1000000 = 0
  · exact Or.inr <| Or.inr <| Or.inr <| Or.inr <| Or.inr <| Or.inr <| Or.inr <| Or.inr <| Or.inr <| Or.inl ⟨if_pos h9, h0, h1, h2, h3, h4, h5, h6, h7, h8, h9⟩
  rw [if_neg h9]
  by_cases h10 : 1048576 ≤ b
  · exact Or.inr <| Or.inr <| Or.inr <| Or.inr <| Or.inr <| Or.inr <| Or.inr <| Or.inr <| Or.inr <| Or.inr <| Or.inl ⟨if_pos h10, h0, h1, h2, h3, h4, h5, h6, h7, h8, h9, h10⟩
  rw [if_neg h10]
  by_cases h11 : b % 1000 = 0
  · exact Or.inr <| Or.inr <| Or.inr <| Or.inr <| Or.inr <| Or.inr <| Or.inr <| Or.inr <| Or.inr <| Or.inr <| Or.inr <| Or.inl ⟨if_pos h11, h0, h1, h2, h3, h4, h5, h6, h7, h8, h9, h10, h11⟩
  rw [if_neg h11]
  by_cases h12 : 1024 ≤ b
  · exact Or.inr <| Or.inr <| Or.inr <| Or.inr <| Or.inr <| Or.inr <| Or.inr <| Or.inr <| Or.inr <| Or.inr <| Or.inr <| Or.inr <| Or.inl ⟨if_pos h12, h0, h1, h2, h3, h4, h5, h6, h7, h8, h9, h10, h11, h12⟩
  rw [if_neg h12]
  exact Or.inr <| Or.inr <| Or.inr <| Or.inr <| Or.inr <| Or.inr <| Or.inr <| Or.inr <| Or.inr <| Or.inr <| Or.inr <| Or.inr <| Or.inr <| ⟨rfl, h0, h1, h2, h3, h4, h5, h6, h7, h8, h9, h10, h11, h12⟩

theorem form_dec_iff (b : Nat) (hb : 0 < b) (k : Nat) (hk1 : 1 ≤ k) (hk6 : k ≤ 6) :
    form b = .dec k ↔
      decUnit k ∣ b ∧ (k < 6 → ¬ decUnit (k + 1) ∣ b ∧ b < binUnit (k + 1)) := by
  obtain ⟨d1, d2, d3, d4, d5, d6, d7⟩ := decUnit_values
  obtain ⟨b1, b2, b3, b4, b5, b6, b7⟩ := binUnit_values
  interval_cases k <;>
    simp only [d1, d2, d3, d4, d5, d6, d7, b1, b2, b3, b4, b5, b6, b7, Nat.reduceAdd] <;>
    rcases form_spec b with ⟨hf, h⟩ | ⟨hf, h⟩ | ⟨hf, h⟩ | ⟨hf, h⟩ | ⟨hf, h⟩ | ⟨hf, h⟩ | ⟨hf, h⟩ |
      ⟨hf, h⟩ | ⟨hf, h⟩ | ⟨hf, h⟩ | ⟨hf, h⟩ | ⟨hf, h⟩ | ⟨hf, h⟩ | ⟨hf, h⟩ <;>
    simp only [hf, Form.dec.injEq, reduceCtorEq, Nat.reduceEqDiff, false_iff, true_iff,
      eq_self_iff_true, Nat.reduceLT, true_implies, false_implies, and_true, true_and] <;>
    omega

theorem form_bin_iff (b : Nat) (hb : 0 < b) (k : Nat) (hk1 : 1 ≤ k) (hk6 : k ≤ 6) :
    form b = .bin k ↔
      binUnit k ≤ b ∧ (k < 6 → b < binUnit (k + 1)) ∧ ¬ decUnit k ∣ b := by
  obtain ⟨d1, d2, d3, d4, d5, d6, d7⟩ := decUnit_values
  obtain ⟨b1, b2, b3, b4, b5, b6, b7⟩ := binUnit_values
  interval_cases k <;>
    simp only [d1, d2, d3, d4, d5, d6, d7, b1, b2, b3, b4, b5, b6, b7, Nat.reduceAdd] <;>
    rcases form_spec b with ⟨hf, h⟩ | ⟨hf, h⟩ | ⟨hf, h⟩ | ⟨hf, h⟩ | ⟨hf, h⟩ | ⟨hf, h⟩ | ⟨hf, h⟩ |
      ⟨hf, h⟩ | ⟨hf, h⟩ | ⟨hf, h⟩ | ⟨hf, h⟩ | ⟨hf, h⟩ | ⟨hf, h⟩ | ⟨hf, h⟩ <;>
    simp only [hf, Form.bin.injEq, reduceCtorEq, Nat.reduceEqDiff, false_iff, true_iff,
      eq_self_iff_true, Nat.reduceLT, true_implies, false_implies, and_true, true_and] <;>
    omega

theorem form_bytes_iff (b : Nat) : form b = .bytes ↔ 0 < b ∧ b < 1024 ∧ b % 1000 ≠ 0 := by
  rcases form_spec b with ⟨hf, h⟩ | ⟨hf, h⟩ | ⟨hf, h⟩ | ⟨hf, h⟩ | ⟨hf, h⟩ | ⟨hf, h⟩ | ⟨hf, h⟩ |
      ⟨hf, h⟩ | ⟨hf, h⟩ | ⟨hf, h⟩ | ⟨hf, h⟩ | ⟨hf, h⟩ | ⟨hf, h⟩ | ⟨hf, h⟩ <;>
    simp only [hf, reduceCtorEq, false_iff, true_iff, eq_self_iff_true] <;>
    omega

theorem form_zero_iff (b : Nat) : form b = .zero ↔ b = 0 := by
  rcases form_spec b with ⟨hf, h⟩ | ⟨hf, h⟩ | ⟨hf, h⟩ | ⟨hf, h⟩ | ⟨hf, h⟩ | ⟨hf, h⟩ | ⟨hf, h⟩ |
      ⟨hf, h⟩ | ⟨hf, h⟩ | ⟨hf, h⟩ | ⟨hf, h⟩ | ⟨hf, h⟩ | ⟨hf, h⟩ | ⟨hf, h⟩ <;>
    simp only [hf, reduceCtorEq, false_iff, true_iff, eq_self_iff_true] <;>
    omega

/-! ## The shape of the texts `String` produces -/

theorem form_range (b : Nat) :
    form b = .zero ∨ form b = .bytes ∨
      ∃ k, 1 ≤ k ∧ k ≤ 6 ∧ (form b = .dec k ∨ form b = .bin k) := by
  rcases form_spec b with ⟨hf, _⟩ | ⟨hf, _⟩ | ⟨hf, _⟩ | ⟨hf, _⟩ | ⟨hf, _⟩ | ⟨hf, _⟩ | ⟨hf, _⟩ |
      ⟨hf, _⟩ | ⟨hf, _⟩ | ⟨hf, _⟩ | ⟨hf, _⟩ | ⟨hf, _⟩ | ⟨hf, _⟩ | ⟨hf, _⟩ <;> rw [hf]
  · exact Or.inl rfl
  · exact Or.inr (Or.inr ⟨6, by omega, by omega, Or.inl rfl⟩)
  · exact Or.inr (Or.inr ⟨6, by omega, by omega, Or.inr rfl⟩)
  · exact Or.inr (Or.inr ⟨5, by omega, by omega, Or.inl rfl⟩)
  · exact Or.inr (Or.inr ⟨5, by omega, by omega, Or.inr rfl⟩)
  · exact Or.inr (Or.inr ⟨4, by omega, by omega, Or.inl rfl⟩)
  · exact Or.inr (Or.inr ⟨4, by omega, by omega, Or.inr rfl⟩)
  · exact Or.inr (Or.inr ⟨3, by omega, by omega, Or.inl rfl⟩)
  · exact Or.inr (Or.inr ⟨3, by omega, by omega, Or.inr rfl⟩)
  · exact Or.inr (Or.inr ⟨2, by omega, by omega, Or.inl rfl⟩)
  · exact Or.inr (Or.inr ⟨2, by omega, by omega, Or.inr rfl⟩)
  · exact Or.inr (Or.inr ⟨1, by omega, by omega, Or.inl rfl⟩)
  · exact Or.inr (Or.inr ⟨1, by omega, by omega, Or.inr rfl⟩)
  · exact Or.inr (Or.inl rfl)

theorem tailSig_dec (b k : Nat) (hk1 : 1 ≤ k) (hk6 : k ≤ 6) :
    tailSig (decimalForm k b) =
      (decAbbrev k).data.reverse ++ [digitChar (b / decUnit k % 10)] := by
  obtain ⟨pre, hpre⟩ := fmtNat_last (b / decUnit k)
  unfold tailSig decimalForm
  rw [hpre]
  interval_cases k <;> simp [decAbbrev]

theorem tailSig_bin (b k : Nat) (hk1 : 1 ≤ k) (hk6 : k ≤ 6) :
    tailSig (render b (.bin k)) = (binAbbrev k).data.reverse := by
  unfold tailSig render
  interval_cases k <;> simp [binAbbrev]

theorem tailSig_bytes (b : Nat) :
    ∃ rest, tailSig (render b .bytes) = 'B' :: digitChar (b % 10) :: rest := by
  obtain ⟨pre, hpre⟩ := fmtNat_last b
  unfold tailSig render
  rw [hpre]
  exact ⟨pre.reverse.take 1, by simp⟩

theorem tailSig_of_suffix (k : Nat) (hk1 : 1 ≤ k) (hk6 : k ≤ 6) (s : String)
    (h : usesBinary k s) : tailSig s = (binAbbrev k).data.reverse := by
  obtain ⟨pre, hpre⟩ := h
  unfold tailSig
  rw [← hpre]
  interval_cases k <;> simp [binAbbrev]

theorem digitChar_ne_alpha (d : Nat) (c : Char) (hc : c.isAlpha = true) :
    digitChar (d % 10) ≠ c := by
  intro h
  have := digitChar_isAlpha (d % 10) (Nat.mod_lt _ (by decide))
  rw [h, hc] at this
  exact absurd this (by decide)

theorem decAbbrev_rev :
    (decAbbrev 1).data.reverse = ['B', 'K'] ∧ (decAbbrev 2).data.reverse = ['B', 'M'] ∧
    (decAbbrev 3).data.reverse = ['B', 'G'] ∧ (decAbbrev 4).data.reverse = ['B', 'T'] ∧
    (decAbbrev 5).data.reverse = ['B', 'P'] ∧ (decAbbrev 6).data.reverse = ['B', 'E'] := by
  decide

theorem binAbbrev_rev :
    (binAbbrev 1).data.reverse = ['B', 'i', 'K'] ∧ (binAbbrev 2).data.reverse = ['B', 'i', 'M'] ∧
    (binAbbrev 3).data.reverse = ['B', 'i', 'G'] ∧ (binAbbrev 4).data.reverse = ['B', 'i', 'T'] ∧
    (binAbbrev 5).data.reverse = ['B', 'i', 'P'] ∧ (binAbbrev 6).data.reverse = ['B', 'i', 'E'] := by
  decide

theorem letters_alpha : 'K'.isAlpha = true ∧ 'M'.isAlpha = true ∧ 'G'.isAlpha = true ∧
    'T'.isAlpha = true ∧ 'P'.isAlpha = true ∧ 'E'.isAlpha = true ∧ 'i'.isAlpha = true := by
  decide

theorem form_of_tailSig_dec (b k : Nat) (hb : 0 < b) (hk1 : 1 ≤ k) (hk6 : k ≤ 6)
    (ht : tailSig (render b (form b)) =
      (decAbbrev k).data.reverse ++ [digitChar (b / decUnit k % 10)]) :
    form b = .dec k := by
  obtain ⟨a1, a2, a3, a4, a5, a6⟩ := decAbbrev_rev
  obtain ⟨c1, c2, c3, c4, c5, c6⟩ := binAbbrev_rev
  obtain ⟨l1, l2, l3, l4, l5, l6, l7⟩ := letters_alpha
  rcases form_range b with hz | hby | ⟨j, hj1, hj6, hd | hbn⟩
  · exact absurd ((form_zero_iff b).1 hz) (by omega)
  · rw [hby] at ht
    obtain ⟨rest, hr⟩ := tailSig_bytes b
    rw [hr] at ht
    exfalso
    interval_cases k <;> simp only [a1, a2, a3, a4, a5, a6, List.cons_append, List.nil_append,
      List.cons.injEq, true_and] at ht
    · exact digitChar_ne_alpha b _ l1 ht.1
    · exact digitChar_ne_alpha b _ l2 ht.1
    · exact digitChar_ne_alpha b _ l3 ht.1
    · exact digitChar_ne_alpha b _ l4 ht.1
    · exact digitChar_ne_alpha b _ l5 ht.1
    · exact digitChar_ne_alpha b _ l6 ht.1
  · rw [hd] at ht ⊢
    have hr : render b (.dec j) = decimalForm j b := rfl
    rw [hr, tailSig_dec b j hj1 hj6] at ht
    interval_cases j <;> interval_cases k <;>
      first
        | rfl
        | (exfalso
           simp only [a1, a2, a3, a4, a5, a6, List.cons_append, List.nil_append,
             List.cons.injEq, true_and] at ht
           exact absurd ht.1 (by decide))
  · rw [hbn, tailSig_bin b j hj1 hj6] at ht
    exfalso
    interval_cases j <;> interval_cases k <;>
      simp only [a1, a2, a3, a4, a5, a6, c1, c2, c3, c4, c5, c6, List.cons_append,
        List.nil_append, List.cons.injEq, true_and] at ht <;>
      exact absurd ht.1 (by decide)

theorem form_of_tailSig_bin (b k : Nat) (hb : 0 < b) (hk1 : 1 ≤ k) (hk6 : k ≤ 6)
    (ht : tailSig (render b (form b)) = (binAbbrev k).data.reverse) :
    form b = .bin k := by
  obtain ⟨a1, a2, a3, a4, a5, a6⟩ := decAbbrev_rev
  obtain ⟨c1, c2, c3, c4, c5, c6⟩ := binAbbrev_rev
  obtain ⟨l1, l2, l3, l4, l5, l6, l7⟩ := letters_alpha
  rcases form_range b with hz | hby | ⟨j, hj1, hj6, hd | hbn⟩
  · exact absurd ((form_zero_iff b).1 hz) (by omega)
  · rw [hby] at ht
    obtain ⟨rest, hr⟩ := tailSig_bytes b
    rw [hr] at ht
    exfalso
    interval_cases k <;> simp only [c1, c2, c3, c4, c5, c6, List.cons.injEq, true_and] at ht <;>
      exact digitChar_ne_alpha b _ l7 ht.1
  · have hr : render b (.dec j) = decimalForm j b := rfl
    rw [hd, hr, tailSig_dec b j hj1 hj6] at ht
    exfalso
    interval_cases j <;> interval_cases k <;>
      simp only [a1, a2, a3, a4, a5, a6, c1, c2, c3, c4, c5, c6, List.cons_append,
        List.nil_append, List.cons.injEq, true_and] at ht <;>
      exact absurd ht.1 (by decide)
  · rw [hbn, tailSig_bin b j hj1 hj6] at ht
    rw [hbn]
    interval_cases j <;> interval_cases k <;>
      first
        | rfl
        | (exfalso
           simp only [c1, c2, c3, c4, c5, c6, List.cons.injEq, true_and, and_true] at ht
           exact absurd ht (by decide))

theorem String_dec_iff (b k : Nat) (hb : 0 < b) (hk1 : 1 ≤ k) (hk6 : k ≤ 6) :
    ByteSize.String b = decimalForm k b ↔ form b = .dec k := by
  constructor
  · intro h
    rw [String_eq_render] at h
    have ht := congrArg tailSig h
    rw [tailSig_dec b k hk1 hk6] at ht
    exact form_of_tailSig_dec b k hb hk1 hk6 ht
  · intro h
    rw [String_eq_render, h]
    rfl

theorem String_bin_iff (b k : Nat) (hb : 0 < b) (hk1 : 1 ≤ k) (hk6 : k ≤ 6) :
    usesBinary k (ByteSize.String b) ↔ form b = .bin k := by
  constructor
  · intro h
    have ht := tailSig_of_suffix k hk1 hk6 _ h
    rw [String_eq_render] at ht
    exact form_of_tailSig_bin b k hb hk1 hk6 ht
  · intro h
    rw [String_eq_render, h]
    exact ⟨fmtFloat2 (inUnit b (binUnit k)), rfl⟩

/-! ## Character classes -/

theorem isUpper_iff (c : Char) : c.isUpper = true ↔ 65 ≤ c.toNat ∧ c.toNat ≤ 90 := by
  simp [Char.isUpper, UInt32.le_def, BitVec.le_def, Char.toNat, UInt32.toNat]

theorem isLower_iff (c : Char) : c.isLower = true ↔ 97 ≤ c.toNat ∧ c.toNat ≤ 122 := by
  simp [Char.isLower, UInt32.le_def, BitVec.le_def, Char.toNat, UInt32.toNat]

theorem isDigit_iff (c : Char) : c.isDigit = true ↔ 48 ≤ c.toNat ∧ c.toNat ≤ 57 := by
  simp [Char.isDigit, UInt32.le_def, BitVec.le_def, Char.toNat, UInt32.toNat]

theorem isAlpha_iff (c : Char) : c.isAlpha = true ↔
    (65 ≤ c.toNat ∧ c.toNat ≤ 90) ∨ (97 ≤ c.toNat ∧ c.toNat ≤ 122) := by
  simp [Char.isAlpha, isUpper_iff, isLower_iff]

theorem char_eq_of_toNat (c d : Char) (h : c.toNat = d.toNat) : c = d := by
  apply Char.ext
  apply UInt32.toNat.inj
  exact h

theorem toNat_ofNat_small (n : Nat) (h : n < 55296) : (Char.ofNat n).toNat = n := by
  have hv : n.isValidChar := Or.inl h
  simp [Char.ofNat, hv, Char.toNat, Char.ofNatAux, UInt32.toNat]

theorem toNat_toLower (c : Char) :
    c.toLower.toNat = if 65 ≤ c.toNat ∧ c.toNat ≤ 90 then c.toNat + 32 else c.toNat := by
  unfold Char.toLower
  simp only [ge_iff_le]
  split
  · rw [toNat_ofNat_small _ (by omega)]
  · rfl

theorem isUnitChar_iff (c : Char) : isUnitChar c = true ↔
    (65 ≤ c.toNat ∧ c.toNat ≤ 90) ∨ (97 ≤ c.toNat ∧ c.toNat ≤ 122) ∨ c.toNat = 32 := by
  unfold isUnitChar
  rw [Bool.or_eq_true, isAlpha_iff, beq_iff_eq]
  constructor
  · rintro (h | h)
    · omega
    · subst h
      exact Or.inr (Or.inr (by decide))
  · intro h
    by_cases h32 : c.toNat = 32
    · exact Or.inr (char_eq_of_toNat _ _ (by rw [h32]; decide))
    · left; omega

theorem isSpace_iff (c : Char) : isSpace c = true ↔
    (c.toNat = 32 ∨ (9 ≤ c.toNat ∧ c.toNat ≤ 13) ∨ c.toNat = 0x85 ∨ c.toNat = 0xA0 ∨
      c.toNat = 0x1680 ∨ (0x2000 ≤ c.toNat ∧ c.toNat ≤ 0x200a) ∨ c.toNat = 0x2028 ∨
      c.toNat = 0x2029 ∨ c.toNat = 0x202f ∨ c.toNat = 0x205f ∨ c.toNat = 0x3000) := by
  simp [isSpace, or_assoc]

theorem unit_not_digit (c : Char) (h : isUnitChar c = true) : c.isDigit = false := by
  rw [isUnitChar_iff] at h
  rw [Bool.eq_false_iff]
  intro hd
  rw [isDigit_iff] at hd
  omega

theorem digit_not_unit (c : Char) (h : c.isDigit = true) : isUnitChar c = false := by
  rw [Bool.eq_false_iff]
  intro hu
  rw [unit_not_digit c hu] at h
  exact absurd h (by decide)

theorem unit_ne_dot (c : Char) (h : isUnitChar c = true) : c ≠ '.' := by
  intro hc
  subst hc
  exact absurd h (by decide)

theorem alpha_not_space (c : Char) (h : c.isAlpha = true) : isSpace c = false := by
  rw [isAlpha_iff] at h
  rw [Bool.eq_false_iff]
  intro hs
  rw [isSpace_iff] at hs
  omega

theorem isUnitChar_toLower (c : Char) : isUnitChar c.toLower = isUnitChar c := by
  rw [Bool.eq_iff_iff, isUnitChar_iff, isUnitChar_iff, toNat_toLower]
  split <;> omega

theorem isSpace_toLower (c : Char) : isSpace c.toLower = isSpace c := by
  rw [Bool.eq_iff_iff, isSpace_iff, isSpace_iff, toNat_toLower]
  split <;> omega

theorem toLower_toLower (c : Char) : c.toLower.toLower = c.toLower := by
  apply char_eq_of_toNat
  rw [toNat_toLower c.toLower, toNat_toLower]
  by_cases h : 65 ≤ c.toNat ∧ c.toNat ≤ 90
  · rw [if_pos h, if_neg (by omega)]
  · rw [if_neg h, if_neg h]

theorem toLower_not_upper (c : Char) : c.toLower.isUpper = false := by
  rw [Bool.eq_false_iff]
  intro h
  rw [isUpper_iff, toNat_toLower] at h
  split at h <;> omega

theorem toLower_of_not_upper (c : Char) (h : c.isUpper = false) : c.toLower = c := by
  apply char_eq_of_toNat
  rw [toNat_toLower]
  have h2 : ¬ (65 ≤ c.toNat ∧ c.toNat ≤ 90) := by
    rw [← isUpper_iff, h]
    decide
  rw [if_neg h2]

/-! ## The regular expression on a number text followed by a unit text -/

theorem takeWhile_digits_stop (ip rest : List Char) (hip : allDigits ip)
    (hrest : ∀ c t, rest = c :: t → c.isDigit = false) :
    (ip ++ rest).takeWhile Char.isDigit = ip := by
  rw [List.takeWhile_append_of_pos hip]
  cases rest with
  | nil => simp
  | cons c t => simp [List.takeWhile_cons, hrest c t rfl]

theorem dropWhile_digits_stop (ip rest : List Char) (hip : allDigits ip)
    (hrest : ∀ c t, rest = c :: t → c.isDigit = false) :
    (ip ++ rest).dropWhile Char.isDigit = rest := by
  rw [List.dropWhile_append_of_pos hip]
  cases rest with
  | nil => simp
  | cons c t => simp [List.dropWhile_cons, hrest c t rfl]

theorem unit_head_not_digit (u : List Char) (hu : allUnitChars u) :
    ∀ c t, u = c :: t → c.isDigit = false := by
  intro c t h
  exact unit_not_digit c (hu c (by rw [h]; exact List.mem_cons_self _ _))

theorem fracText_append_head (fr : Option (List Char)) (u : List Char) (hu : allUnitChars u) :
    ∀ c t, fracText fr ++ u = c :: t → c.isDigit = false := by
  intro c t h
  cases fr with
  | none => exact unit_head_not_digit u hu c t h
  | some fp =>
    simp only [fracText, List.cons_append, List.cons.injEq] at h
    rw [← h.1]
    decide

theorem fracGroup_fracText (fr : Option (List Char)) (u : List Char) (hfr : fracDigits fr)
    (hu : allUnitChars u) : fracGroup (fracText fr ++ u) = fracText fr := by
  cases fr with
  | none =>
    cases u with
    | nil => rfl
    | cons c t =>
      have hc : c ≠ '.' := unit_ne_dot c (hu c (List.mem_cons_self _ _))
      simp only [fracText, List.nil_append]
      unfold fracGroup
      split
      · next t2 heq =>
        simp only [List.cons.injEq] at heq
        exact absurd heq.1 hc
      · rfl
  | some fp =>
    simp only [fracText, List.cons_append, fracGroup]
    rw [takeWhile_digits_stop fp u hfr (unit_head_not_digit u hu)]

theorem matchHere_numText (ip : List Char) (fr : Option (List Char)) (u : List Char)
    (hip : allDigits ip) (hfr : fracDigits fr) (hu : allUnitChars u) (hne : u ≠ []) :
    matchHere (numText ip fr ++ u) = some ⟨numText ip fr ++ u, ip, fracText fr, u⟩ := by
  unfold matchHere numText
  simp only [List.append_assoc]
  rw [takeWhile_digits_stop ip _ hip (fracText_append_head fr u hu),
    dropWhile_digits_stop ip _ hip (fracText_append_head fr u hu),
    fracGroup_fracText fr u hfr hu, List.drop_left,
    List.takeWhile_eq_self_iff.2 hu]
  simp [hne]

theorem matchHere_nil : matchHere [] = none := by decide

theorem Find_of_matchHere (s : List Char) (ss : Submatch) (h : matchHere s = some ss) :
    FindStringSubmatch s = some ss := by
  cases s with
  | nil => rw [matchHere_nil] at h; exact absurd h (by simp)
  | cons c cs => simp only [FindStringSubmatch, h]

theorem UnmarshalText_numText (tg : Target) (b : Nat) (ip : List Char)
    (fr : Option (List Char)) (u : List Char)
    (hip : allDigits ip) (hfr : fracDigits fr) (hu : allUnitChars u) (hne : u ≠ []) :
    UnmarshalText tg b ⟨numText ip fr ++ u⟩ =
      unmarshalGroups tg b ⟨numText ip fr ++ u⟩ ip (fracText fr) u := by
  unfold UnmarshalText
  simp only [Find_of_matchHere _ _ (matchHere_numText ip fr u hip hfr hu hne)]
  simp

theorem ParseFloat_numText (ip : List Char) (fr : Option (List Char))
    (hip : allDigits ip) (hfr : fracDigits fr) :
    ParseFloat (ip ++ fracText fr) =
      if ip = [] ∧ fr.getD [] = [] then .error .ErrSyntax
      else if 2 ^ 1024 * one ≤
          (F64.round (digitsVal (ip ++ fr.getD []) * one) (10 ^ (fr.getD []).length)).units
        then .error .ErrRange
      else .ok (F64.round (digitsVal (ip ++ fr.getD []) * one) (10 ^ (fr.getD []).length)) := by
  unfold ParseFloat
  cases fr with
  | none =>
    have h1 : ip.takeWhile Char.isDigit = ip := List.takeWhile_eq_self_iff.2 hip
    have h2 : ip.dropWhile Char.isDigit = [] := List.dropWhile_eq_nil_iff.2 hip
    simp only [fracText, List.append_nil, h1, h2, Option.getD_none]
  | some fp =>
    have hd : ∀ c t, '.' :: fp = c :: t → c.isDigit = false := by
      intro c t h
      simp only [List.cons.injEq] at h
      rw [← h.1]
      decide
    have hall : fp.all Char.isDigit = true := List.all_eq_true.2 hfr
    simp only [fracText, takeWhile_digits_stop ip _ hip hd, dropWhile_digits_stop ip _ hip hd,
      hall, if_true, Option.getD_some]

/-! ## Trimming and lower-casing -/

theorem dropWhile_none {p : Char → Bool} (l : List Char) (h : ∀ c ∈ l, p c = false) :
    l.dropWhile p = l := by
  cases l with
  | nil => rfl
  | cons c t => simp [List.dropWhile_cons, h c (List.mem_cons_self _ _)]

theorem dropWhile_spaces_append (i : Nat) (l : List Char) :
    (List.replicate i ' ' ++ l).dropWhile isSpace = l.dropWhile isSpace := by
  apply List.dropWhile_append_of_pos
  intro c hc
  rw [List.eq_of_mem_replicate hc]
  decide

theorem TrimSpace_pad (i j : Nat) (w : List Char) (hw : ∀ c ∈ w, isSpace c = false) :
    TrimSpace (List.replicate i ' ' ++ w ++ List.replicate j ' ') = w := by
  unfold TrimSpace
  rw [List.append_assoc, dropWhile_spaces_append]
  cases w with
  | nil =>
    have h := dropWhile_spaces_append j []
    simp only [List.append_nil, List.dropWhile_nil] at h
    simp [h]
  | cons c t =>
    have hc : isSpace c = false := hw c (List.mem_cons_self _ _)
    have h1 : (c :: t ++ List.replicate j ' ').dropWhile isSpace =
        c :: t ++ List.replicate j ' ' := by
      simp [List.dropWhile_cons, hc]
    rw [h1, List.reverse_append, List.reverse_replicate, dropWhile_spaces_append,
      dropWhile_none _ (by
        intro d hd
        exact hw d (List.mem_reverse.1 hd)),
      List.reverse_reverse]

theorem TrimSpace_ToLower (l : List Char) : TrimSpace (ToLower l) = ToLower (TrimSpace l) := by
  have hf : isSpace ∘ Char.toLower = isSpace := by
    funext c
    exact isSpace_toLower c
  unfold TrimSpace ToLower
  rw [List.dropWhile_map, hf, ← List.map_reverse, List.dropWhile_map, hf, List.map_reverse]

theorem ToLower_ToLower (l : List Char) : ToLower (ToLower l) = ToLower l := by
  unfold ToLower
  rw [List.map_map]
  apply List.map_congr_left
  intro c _
  exact toLower_toLower c

theorem allUnitChars_ToLower (u : List Char) (hu : allUnitChars u) :
    allUnitChars (ToLower u) := by
  intro c hc
  obtain ⟨d, hd, rfl⟩ := List.mem_map.1 hc
  rw [isUnitChar_toLower]
  exact hu d hd

theorem reserved_head_upper : ∀ r ∈ reserved, r.data.head?.map Char.isUpper = some true := by
  decide

theorem reserved_alpha : ∀ r ∈ reserved, ∀ c ∈ r.data, c.isAlpha = true := by
  decide

theorem ToLower_not_reserved (w : List Char) : (⟨ToLower w⟩ : String) ∉ reserved := by
  intro h
  have hc := reserved_head_upper _ h
  cases w with
  | nil => simp [ToLower] at hc
  | cons d t2 =>
    simp only [ToLower, List.map_cons, List.head?_cons, Option.map_some', toLower_not_upper]
      at hc
    exact absurd hc (by decide)

/-! ## The part of `UnmarshalText` after the match -/

theorem unmarshalGroups_congr (tg : Target) (b : Nat) (s s2 : String) (g1 g2 g3 h3 : List Char)
    (hr : (⟨TrimSpace g3⟩ : String) ∉ reserved) (hr2 : (⟨TrimSpace h3⟩ : String) ∉ reserved)
    (hl : ToLower (TrimSpace g3) = ToLower (TrimSpace h3)) :
    (unmarshalGroups tg b s g1 g2 g3).1 = (unmarshalGroups tg b s2 g1 g2 h3).1 ∧
      errKind (unmarshalGroups tg b s g1 g2 g3) = errKind (unmarshalGroups tg b s2 g1 g2 h3) := by
  unfold unmarshalGroups
  cases ParseFloat (g1 ++ g2) with
  | error e => exact ⟨rfl, rfl⟩
  | ok num =>
    simp only [if_neg hr, if_neg hr2, hl]
    cases unitSwitch ⟨ToLower (TrimSpace h3)⟩ num with
    | error e => exact ⟨rfl, rfl⟩
    | ok y =>
      by_cases hy : F64.ofNat (F64.toUint64 tg y) ≠ y
      · simp [if_pos hy, errKind]
      · simp [if_neg hy, errKind]

/-! ## Rounding -/

theorem bitLenAux_spec (fuel : Nat) : ∀ n acc, n ≤ fuel →
    ∃ L, bitLenAux fuel n acc = acc + L ∧ n < 2 ^ L ∧ (n ≠ 0 → 2 ^ (L - 1) ≤ n) := by
  induction fuel with
  | zero =>
    intro n acc h
    have h0 : n = 0 := by omega
    exact ⟨0, by simp [bitLenAux], by simp [h0], fun hn => absurd h0 hn⟩
  | succ fuel ih =>
    intro n acc h
    unfold bitLenAux
    by_cases h0 : n = 0
    · exact ⟨0, by simp [h0], by simp [h0], fun hn => absurd h0 hn⟩
    · rw [if_neg h0]
      by_cases hbig : 2 ^ 64 ≤ n
      · rw [if_pos hbig]
        have hq : n / 2 ^ 64 ≤ fuel := by
          have : n / 2 ^ 64 < n := Nat.div_lt_self (by omega) (by norm_num)
          omega
        obtain ⟨L, hL, hlt, hge⟩ := ih (n / 2 ^ 64) (acc + 64) hq
        have hq0 : n / 2 ^ 64 ≠ 0 := by
          have := Nat.div_pos hbig (by norm_num : 0 < 2 ^ 64)
          omega
        have hge := hge hq0
        have hL1 : 1 ≤ L := by
          by_contra hc
          have : L = 0 := by omega
          rw [this] at hlt
          simp at hlt
          omega
        refine ⟨L + 64, by rw [hL]; omega, ?_, fun _ => ?_⟩
        · rw [pow_add]
          exact (Nat.div_lt_iff_lt_mul (by norm_num)).1 hlt
        · have e : L + 64 - 1 = (L - 1) + 64 := by omega
          rw [e, pow_add]
          calc 2 ^ (L - 1) * 2 ^ 64 ≤ n / 2 ^ 64 * 2 ^ 64 := Nat.mul_le_mul_right _ hge
            _ ≤ n := Nat.div_mul_le_self n _
      · rw [if_neg hbig]
        have hq : n / 2 ≤ fuel := by omega
        obtain ⟨L, hL, hlt, hge⟩ := ih (n / 2) (acc + 1) hq
        refine ⟨L + 1, by rw [hL]; omega, ?_, fun _ => ?_⟩
        · rw [pow_succ]
          omega
        · by_cases h1 : n / 2 = 0
          · have hL0 : L = 0 := by
              have := ih (n / 2) (acc + 1) hq
              rw [h1] at hL
              cases fuel with
              | zero => simp [bitLenAux] at hL; omega
              | succ f => simp [bitLenAux] at hL; omega
            rw [hL0]
            simp
            omega
          · have hge := hge h1
            have hL1 : 1 ≤ L := by
              by_contra hc
              have : L = 0 := by omega
              rw [this] at hlt
              simp at hlt
              omega
            have e : L + 1 - 1 = (L - 1) + 1 := by omega
            rw [e, pow_succ]
            omega

theorem bitLen_lt (n : Nat) : n < 2 ^ bitLen n := by
  obtain ⟨L, hL, hlt, _⟩ := bitLenAux_spec n n 0 (le_refl n)
  unfold bitLen
  rw [hL, Nat.zero_add]
  exact hlt

theorem bitLen_ge (n : Nat) (hn : n ≠ 0) : 2 ^ (bitLen n - 1) ≤ n := by
  obtain ⟨L, hL, _, hge⟩ := bitLenAux_spec n n 0 (le_refl n)
  unfold bitLen
  rw [hL, Nat.zero_add]
  exact hge hn

theorem bitLen_zero : bitLen 0 = 0 := by decide

theorem bitLen_le_iff (n j : Nat) : bitLen n ≤ j ↔ n < 2 ^ j := by
  constructor
  · intro h
    exact lt_of_lt_of_le (bitLen_lt n) (Nat.pow_le_pow_right (by norm_num) h)
  · intro h
    by_cases hn : n = 0
    · rw [hn, bitLen_zero]; omega
    · have h1 := bitLen_ge n hn
      have h2 : 2 ^ (bitLen n - 1) < 2 ^ j := lt_of_le_of_lt h1 h
      have h3 := (Nat.pow_lt_pow_iff_right (by norm_num : 1 < 2)).1 h2
      omega

theorem rne_exact (q m : Nat) (hq : 0 < q) : rne (q * m) q = m := by
  unfold rne
  simp only [Nat.mul_mod_right, Nat.mul_div_cancel_left m hq]
  rw [if_pos (by omega)]

/-- A rational that is `m * 2 ^ k` multiples of `2 ^ (-1074)` with `m < 2 ^ 53` is a
float64, and rounding returns it unchanged. -/
theorem round_exact (q m k : Nat) (hq : 0 < q) (hm : m < 2 ^ 53) :
    F64.round (q * (m * 2 ^ k)) q = ⟨m * 2 ^ k⟩ := by
  unfold F64.round
  simp only [Nat.mul_div_cancel_left _ hq]
  have hsh : bitLen (m * 2 ^ k) - 53 ≤ k := by
    have : bitLen (m * 2 ^ k) ≤ 53 + k := by
      rw [bitLen_le_iff, pow_add]
      exact Nat.mul_lt_mul_of_pos_right hm (by positivity)
    omega
  obtain ⟨d, hd⟩ := Nat.exists_eq_add_of_le hsh
  generalize bitLen (m * 2 ^ k) - 53 = sh at hd
  subst hd
  have e : q * (m * 2 ^ (sh + d)) = (q * 2 ^ sh) * (m * 2 ^ d) := by
    rw [pow_add]; ring
  rw [e, rne_exact _ _ (by positivity)]
  congr 1
  rw [pow_add]; ring

theorem one_pos : 0 < one := by
  unfold one
  positivity

theorem ofNat_exact (m k : Nat) (hm : m < 2 ^ 53) :
    F64.ofNat (m * 2 ^ k) = ⟨m * 2 ^ k * one⟩ := by
  unfold F64.ofNat
  have h := round_exact 1 m (k + fracBits) (by norm_num) hm
  have e : m * 2 ^ k * one = m * 2 ^ (k + fracBits) := by
    unfold one
    rw [pow_add, mul_assoc]
  rw [Nat.one_mul] at h
  rw [e]
  exact h

theorem ofNat_small (n : Nat) (hn : n < 2 ^ 53) : F64.ofNat n = ⟨n * one⟩ := by
  have h := ofNat_exact n 0 hn
  rw [pow_zero, Nat.mul_one] at h
  exact h

theorem mul_exact (a c m k : Nat) (hm : m < 2 ^ 53) (h : a * c = m * 2 ^ k) :
    F64.mul ⟨a * one⟩ ⟨c * one⟩ = ⟨m * 2 ^ k * one⟩ := by
  unfold F64.mul
  have e2 : m * 2 ^ k * one = m * 2 ^ (k + fracBits) := by
    unfold one
    rw [pow_add, mul_assoc]
  have e : a * one * (c * one) = one * (m * 2 ^ (k + fracBits)) := by
    rw [← e2, ← h]
    ring
  show F64.round (a * one * (c * one)) one = _
  rw [e, e2]
  exact round_exact one m (k + fracBits) one_pos hm

theorem toUint64_whole (tg : Target) (n : Nat) (hn : n < 2 ^ 64) :
    F64.toUint64 tg ⟨n * one⟩ = n := by
  unfold F64.toUint64
  have h1 : n * one / one = n := Nat.mul_div_cancel n one_pos
  simp only [h1, if_pos hn]

/-! ## The alias table and the unit switch -/

theorem alias_facts : ∀ row ∈ aliasTable, ∀ a ∈ row.1, a ≠ "" →
    (a.data.all isUnitChar = true ∧ a.data ≠ [] ∧ TrimSpace a.data = a.data ∧
      a ∉ reserved ∧ ToLower a.data = a.data) := by
  decide

theorem unitSwitch_alias (num : F64) : ∀ row ∈ aliasTable, ∀ a ∈ row.1,
    unitSwitch a num = if row.2 = 1 then .ok num else scaleBy num row.2 := by
  intro row hrow a ha
  simp only [aliasTable, List.mem_cons, List.mem_singleton, List.not_mem_nil, or_false] at hrow
  rcases hrow with rfl | rfl | rfl | rfl | rfl | rfl | rfl | rfl | rfl | rfl | rfl | rfl | rfl
  · simp only [List.mem_cons, List.mem_singleton, List.not_mem_nil, or_false] at ha
    rcases ha with rfl | rfl | rfl <;> rfl
  all_goals
    simp only [List.mem_cons, List.mem_singleton, List.not_mem_nil, or_false] at ha
    rcases ha with rfl | rfl | rfl | rfl | rfl <;> rfl

/-- The units of the scaled rows of the alias table. -/
theorem scaled_units (row : List String × Nat) (h : row ∈ aliasTable) (h1 : row.2 ≠ 1) :
    row.2 ∈ [KB, MB, GB, TB, PB, EB, KiB, MiB, GiB, TiB, PiB, EiB] := by
  simp only [aliasTable, List.mem_cons, List.mem_singleton, List.not_mem_nil, or_false] at h
  rcases h with rfl | rfl | rfl | rfl | rfl | rfl | rfl | rfl | rfl | rfl | rfl | rfl | rfl
  · exact absurd rfl h1
  all_goals simp

theorem unit_facts : ∀ U ∈ [KB, MB, GB, TB, PB, EB, KiB, MiB, GiB, TiB, PiB, EiB],
    F64.ofNat U = ⟨U * one⟩ ∧ (2 ^ 64 - 2048) * one ≤ (rangeLimit U).units * U ∧
      MaxUint64 / U * one ≤ (rangeLimit U).units ∧ 0 < U := by
  decide

/-! ## Parsing when every float64 operation is exact -/

theorem round_of_isFloat64 (p q : Nat) (hq : 0 < q) (h : isFloat64 p q) :
    (F64.round (p * one) q).units * q = p * one := by
  obtain ⟨M, K, hM, hp⟩ := h
  rw [hp, round_exact q M K hq hM]
  show M * 2 ^ K * q = q * (M * 2 ^ K)
  ring

theorem isFloat64_of_lt (n : Nat) (h : n < 2 ^ 53) : isFloat64 n 1 :=
  ⟨n, fracBits, h, by unfold one; ring⟩

theorem isFloat64_mul_pow (m e : Nat) (h : m < 2 ^ 53) : isFloat64 (m * 2 ^ e) 1 :=
  ⟨m, e + fracBits, h, by unfold one; rw [pow_add]; ring⟩

theorem ofNat_of_isFloat64 (N : Nat) (h : isFloat64 N 1) : F64.ofNat N = ⟨N * one⟩ := by
  obtain ⟨M, K, hM, hp⟩ := h
  unfold F64.ofNat
  rw [hp, round_exact 1 M K (by norm_num) hM]
  congr 1
  ring

/-- A whole float64 that fits `uint64` is at most `2 ^ 64 - 2048`. -/
theorem isFloat64_le (N : Nat) (h : isFloat64 N 1) (h64 : N < 2 ^ 64) : N ≤ 2 ^ 64 - 2048 := by
  obtain ⟨M, K, hM, hp⟩ := h
  rw [Nat.one_mul] at hp
  unfold one at hp
  by_cases hK : fracBits + 11 ≤ K
  · obtain ⟨d, hd⟩ := Nat.exists_eq_add_of_le hK
    have e1 : N * 2 ^ fracBits = (M * 2 ^ d * 2 ^ 11) * 2 ^ fracBits := by
      rw [hp, hd, pow_add, pow_add]; ring
    have e2 : N = M * 2 ^ d * 2 ^ 11 := Nat.eq_of_mul_eq_mul_right (by positivity) e1
    generalize M * 2 ^ d = t at e2
    omega
  · have hK2 : K ≤ fracBits + 10 := by omega
    obtain ⟨d, hd⟩ := Nat.exists_eq_add_of_le hK2
    have e1 : N * 2 ^ d * 2 ^ K = (M * 2 ^ 10) * 2 ^ K := by
      have : N * 2 ^ d * 2 ^ K = N * 2 ^ (K + d) := by rw [pow_add]; ring
      rw [this, ← hd, pow_add]
      have hp2 : N * (2 ^ fracBits * 2 ^ 10) = N * 2 ^ fracBits * 2 ^ 10 := by ring
      rw [hp2, hp]; ring
    have e2 : N * 2 ^ d = M * 2 ^ 10 := Nat.eq_of_mul_eq_mul_right (by positivity) e1
    have e3 : N ≤ N * 2 ^ d := Nat.le_mul_of_pos_right _ (by positivity)
    omega

theorem scaleBy_exact (x : F64) (U N : Nat)
    (hU : U ∈ [KB, MB, GB, TB, PB, EB, KiB, MiB, GiB, TiB, PiB, EiB])
    (hN : isFloat64 N 1) (h64 : N < 2 ^ 64)
    (h : x.units * U = N * one) : scaleBy x U = .ok ⟨N * one⟩ := by
  obtain ⟨hof, hlim, _, hpos⟩ := unit_facts U hU
  have hr : x.units ≤ (rangeLimit U).units := by
    apply Nat.le_of_mul_le_mul_right _ hpos
    rw [h]
    exact le_trans (Nat.mul_le_mul_right _ (isFloat64_le N hN h64)) hlim
  obtain ⟨M, K, hM, hp⟩ := hN
  unfold scaleBy F64.gt
  have hng : decide ((rangeLimit U).units < x.units) = false := by
    rw [decide_eq_false_iff_not]
    omega
  rw [hng, hof]
  simp only [Bool.false_eq_true, if_false]
  congr 1
  have e3 : x.units * (U * one) = one * (M * 2 ^ K) := by
    rw [← Nat.mul_assoc, h, ← Nat.one_mul (M * 2 ^ K), ← hp]
    ring
  show F64.round (x.units * (U * one)) one = _
  rw [e3, round_exact one M K one_pos hM]
  congr 1
  rw [← Nat.one_mul (M * 2 ^ K), ← hp]

theorem finish_exact (tg : Target) (b : Nat) (s : String) (N : Nat) (hN : isFloat64 N 1)
    (h64 : N < 2 ^ 64) :
    (if F64.ofNat (F64.toUint64 tg ⟨N * one⟩) ≠ (⟨N * one⟩ : F64)
      then (b, some (⟨fnUnmarshalText, s, .ErrSyntax⟩ : NumError))
      else (F64.toUint64 tg ⟨N * one⟩, none)) = (N, none) := by
  rw [toUint64_whole tg _ h64, ofNat_of_isFloat64 N hN]
  simp

theorem alias_allUnitChars (a : String) (h : a.data.all isUnitChar = true) :
    allUnitChars a.data := by
  intro c hc
  exact List.all_eq_true.1 h c hc

/-- When the number is a float64 exactly and its product `N` with the unit is a whole
float64 that fits `uint64`, `UnmarshalText` stores `N`.  The unit text `u` may be any text
of letters and spaces that is not reserved and resolves to a spelling of the alias table. -/
theorem unmarshal_exact_text (tg : Target) (b0 : Nat) (ip : List Char)
    (fr : Option (List Char)) (u : List Char) (row : List String × Nat) (N : Nat)
    (hip : allDigits ip) (hfr : fracDigits fr) (hnum : hasDigit ip fr)
    (hu : allUnitChars u) (hne : u ≠ []) (hres : (⟨TrimSpace u⟩ : String) ∉ reserved)
    (hrow : row ∈ aliasTable) (hmem : (⟨ToLower (TrimSpace u)⟩ : String) ∈ row.1)
    (hx : isFloat64 (numNumer ip fr) (numDenom fr))
    (hN : N * numDenom fr = numNumer ip fr * row.2)
    (hNf : isFloat64 N 1) (h64 : N < 2 ^ 64) :
    UnmarshalText tg b0 ⟨numText ip fr ++ u⟩ = (N, none) := by
  have h10 : 0 < numDenom fr := by unfold numDenom; positivity
  have hx := round_of_isFloat64 _ _ h10 hx
  have hsw := unitSwitch_alias (F64.round (numNumer ip fr * one) (numDenom fr)) row hrow _ hmem
  have hpf := ParseFloat_numText ip fr hip hfr
  rw [if_neg hnum] at hpf
  change ParseFloat (ip ++ fracText fr) =
    if 2 ^ 1024 * one ≤ (F64.round (numNumer ip fr * one) (numDenom fr)).units
      then .error .ErrRange
      else .ok (F64.round (numNumer ip fr * one) (numDenom fr)) at hpf
  generalize F64.round (numNumer ip fr * one) (numDenom fr) = X at hx hsw hpf
  generalize hU : row.2 = U at hsw hN
  have hUpos : 0 < U := by
    by_cases h1 : U = 1
    · omega
    · exact (unit_facts U (hU ▸ scaled_units row hrow (hU ▸ h1))).2.2.2
  have hXU : X.units * U = N * one := by
    apply Nat.eq_of_mul_eq_mul_right h10
    calc X.units * U * numDenom fr
        = X.units * numDenom fr * U := by ring
      _ = numNumer ip fr * one * U := by rw [hx]
      _ = numNumer ip fr * U * one := by ring
      _ = N * numDenom fr * one := by rw [hN]
      _ = N * one * numDenom fr := by ring
  have hXle : X.units ≤ N * one := by
    rw [← hXU]
    exact Nat.le_mul_of_pos_right _ hUpos
  have hfin : ¬ 2 ^ 1024 * one ≤ X.units := by
    have h1 : N * one < 2 ^ 64 * one := Nat.mul_lt_mul_of_pos_right h64 one_pos
    have h2 : 2 ^ 64 * one ≤ 2 ^ 1024 * one :=
      Nat.mul_le_mul_right _ (Nat.pow_le_pow_right (by norm_num) (by norm_num))
    omega
  rw [if_neg hfin] at hpf
  rw [UnmarshalText_numText tg b0 ip fr u hip hfr hu hne]
  unfold unmarshalGroups
  rw [hpf]
  simp only
  rw [if_neg hres, hsw]
  by_cases h1 : U = 1
  · rw [if_pos h1]
    have hXe : X = ⟨N * one⟩ := by
      cases X with
      | mk w =>
        simp only [F64.mk.injEq]
        rw [h1, Nat.mul_one] at hXU
        exact hXU
    rw [hXe]
    exact finish_exact tg b0 _ N hNf h64
  · rw [if_neg h1, scaleBy_exact X U N (hU ▸ scaled_units row hrow (hU ▸ h1)) hNf h64 hXU]
    exact finish_exact tg b0 _ N hNf h64

theorem unmarshal_exact (tg : Target) (b0 : Nat) (ip : List Char) (fr : Option (List Char))
    (a : String) (U N : Nat) (hip : allDigits ip) (hfr : fracDigits fr)
    (hnum : hasDigit ip fr) (ha : isAlias a U)
    (hx : isFloat64 (numNumer ip fr) (numDenom fr))
    (hN : N * numDenom fr = numNumer ip fr * U)
    (hNf : isFloat64 N 1) (h64 : N < 2 ^ 64) :
    UnmarshalText tg b0 ⟨numText ip fr ++ a.data⟩ = (N, none) := by
  obtain ⟨row, hrow, hmem, hU, hne⟩ := ha
  obtain ⟨f1, f2, f3, f4, f5⟩ := alias_facts row hrow a hmem hne
  subst hU
  apply unmarshal_exact_text tg b0 ip fr a.data row N hip hfr hnum (alias_allUnitChars a f1) f2
    _ hrow _ hx hN hNf h64
  · rw [f3]; exact f4
  · rw [f3, f5]; exact hmem

/-! ## Formatting and parsing back -/

theorem dec_text_facts : ∀ k < 7,
    ((decAbbrev k).data.all isUnitChar = true ∧ (decAbbrev k).data ≠ [] ∧
      (⟨TrimSpace (decAbbrev k).data⟩ : String) ∉ reserved ∧
      ∃ row ∈ aliasTable, (⟨ToLower (TrimSpace (decAbbrev k).data)⟩ : String) ∈ row.1 ∧
        row.2 = decUnit k) := by
  decide

theorem numText_none (ip : List Char) : numText ip none = ip := by
  simp [numText, fracText]

theorem numNumer_fmtNat (q : Nat) : numNumer (fmtNat q) none = q := by
  simp [numNumer, digitsVal_fmtNat]

theorem numDenom_none : numDenom none = 1 := by
  simp [numDenom]

/-- Parsing the decimal digits of `q` followed by a unit abbreviation of `String`. -/
theorem parse_decimalForm (tg : Target) (b0 b k : Nat) (hk : k < 7)
    (hdiv : decUnit k ∣ b) (hq : b / decUnit k < 2 ^ 53) (hf : isFloat64 b 1)
    (h64 : b < 2 ^ 64) : UnmarshalText tg b0 (decimalForm k b) = (b, none) := by
  obtain ⟨f1, f2, f3, row, hrow, hmem, hU⟩ := dec_text_facts k hk
  have h := unmarshal_exact_text tg b0 (fmtNat (b / decUnit k)) none (decAbbrev k).data row b
    (fmtNat_digits _) trivial
    (by
      intro hc
      exact fmtNat_ne_nil _ hc.1)
    (alias_allUnitChars _ f1) f2 f3 hrow hmem
    (by
      rw [numNumer_fmtNat, numDenom_none]
      exact isFloat64_of_lt _ hq)
    (by
      rw [numNumer_fmtNat, numDenom_none, hU, Nat.mul_one]
      exact (Nat.div_mul_cancel hdiv).symm)
    hf h64
  rw [numText_none] at h
  exact h

theorem decimalForm_zero (b : Nat) : decimalForm 0 b = ⟨fmtNat b ++ ['B']⟩ := by
  unfold decimalForm
  have h : decUnit 0 = 1 := rfl
  rw [h, Nat.div_one]
  rfl

theorem roundtrip_of_form (tg : Target) (b0 b : Nat) (h64 : b < 2 ^ 64)
    (hf : ∀ j, form b ≠ .bin j) : UnmarshalText tg b0 (ByteSize.String b) = (b, none) := by
  obtain ⟨d1, d2, d3, d4, d5, d6, d7⟩ := decUnit_values
  obtain ⟨b1, b2, b3, b4, b5, b6, b7⟩ := binUnit_values
  rw [String_eq_render]
  rcases form_range b with hz | hby | ⟨k, hk1, hk6, hd | hbn⟩
  · have hb0 := (form_zero_iff b).1 hz
    rw [hz]
    subst hb0
    exact parse_decimalForm tg b0 0 0 (by norm_num) (Nat.dvd_zero _) (by norm_num)
      (isFloat64_of_lt 0 (by norm_num)) h64
  · have hb := (form_bytes_iff b).1 hby
    rw [hby]
    have hr : render b .bytes = decimalForm 0 b := by
      rw [decimalForm_zero]
      rfl
    rw [hr]
    have hq : b / decUnit 0 < 2 ^ 53 := by
      have h : decUnit 0 = 1 := rfl
      rw [h, Nat.div_one]
      omega
    exact parse_decimalForm tg b0 b 0 (by norm_num) (by
      have h : decUnit 0 = 1 := rfl
      rw [h]
      exact Nat.one_dvd b) hq (isFloat64_of_lt b (by omega)) h64
  · have hb : 0 < b := by
      rcases Nat.eq_zero_or_pos b with h0 | h0
      · have := (form_zero_iff b).2 h0
        rw [hd] at this
        exact absurd this (by simp)
      · exact h0
    have hc := (form_dec_iff b hb k hk1 hk6).1 hd
    rw [hd]
    have hr : render b (.dec k) = decimalForm k b := rfl
    rw [hr]
    obtain ⟨hdiv, hlt⟩ := hc
    have hqle : b / decUnit k ≤ b := Nat.div_le_self _ _
    have hmul : b / decUnit k * decUnit k = b := Nat.div_mul_cancel hdiv
    apply parse_decimalForm tg b0 b k (by omega) hdiv _ _ h64
    · interval_cases k <;>
        simp only [d1, d2, d3, d4, d5, d6, b2, b3, b4, b5, b6, Nat.reduceAdd, Nat.reduceLT,
          true_implies] at hlt hmul hqle ⊢ <;> omega
    · interval_cases k <;>
        simp only [d1, d2, d3, d4, d5, d6, b2, b3, b4, b5, b6, Nat.reduceAdd, Nat.reduceLT,
          true_implies] at hlt hmul hqle
      · exact isFloat64_of_lt b (by omega)
      · exact isFloat64_of_lt b (by omega)
      · exact isFloat64_of_lt b (by omega)
      · exact isFloat64_of_lt b (by omega)
      · have e : b = (b / 1000000000000000 * 30517578125) * 2 ^ 15 := by omega
        rw [e]
        exact isFloat64_mul_pow _ 15 (by omega)
      · have e : b = (b / 1000000000000000000 * 3814697265625) * 2 ^ 18 := by omega
        rw [e]
        exact isFloat64_mul_pow _ 18 (by omega)
  · exact absurd hbn (hf k)

/-! ## Rounding is monotone -/

theorem rne_floor_le (p q : Nat) : p / q ≤ rne p q := by
  unfold rne
  simp only
  split
  · exact le_refl _
  · split
    · omega
    · split <;> omega

theorem rne_le_succ (p q : Nat) : rne p q ≤ p / q + 1 := by
  unfold rne
  simp only
  split
  · omega
  · split
    · omega
    · split <;> omega

theorem rne_mono (p1 q1 p2 q2 : Nat) (hq1 : 0 < q1) (hq2 : 0 < q2)
    (h : p1 * q2 ≤ p2 * q1) : rne p1 q1 ≤ rne p2 q2 := by
  have e1 := Nat.div_add_mod p1 q1
  have e2 := Nat.div_add_mod p2 q2
  have l1 := Nat.mod_lt p1 hq1
  have l2 := Nat.mod_lt p2 hq2
  have hf : p1 / q1 ≤ p2 / q2 := by
    rw [Nat.le_div_iff_mul_le hq2]
    apply Nat.le_of_mul_le_mul_right _ hq1
    have : p1 / q1 * q1 ≤ p1 := Nat.div_mul_le_self p1 q1
    calc p1 / q1 * q2 * q1 = p1 / q1 * q1 * q2 := by ring
      _ ≤ p1 * q2 := Nat.mul_le_mul_right _ this
      _ ≤ p2 * q1 := h
  by_cases hlt : p1 / q1 < p2 / q2
  · exact le_trans (rne_le_succ p1 q1) (le_trans hlt (rne_floor_le p2 q2))
  · have hfe : p1 / q1 = p2 / q2 := by omega
    have hr : p1 % q1 * q2 ≤ p2 % q2 * q1 := by
      have h1 : p1 * q2 = q1 * q2 * (p1 / q1) + p1 % q1 * q2 := by
        conv_lhs => rw [← e1]
        ring
      have h2 : p2 * q1 = q1 * q2 * (p1 / q1) + p2 % q2 * q1 := by
        conv_lhs => rw [← e2]
        rw [hfe]
        ring
      omega
    unfold rne
    simp only [hfe]
    generalize p1 % q1 = r1 at hr l1 ⊢
    generalize p2 % q2 = r2 at hr l2 ⊢
    generalize hfv : p2 / q2 = f
    have key1 : q1 ≤ 2 * r1 → q2 ≤ 2 * r2 := by
      intro hc
      by_contra hn
      have hn : 2 * r2 < q2 := by omega
      nlinarith [Nat.mul_lt_mul_of_pos_right hn hq1, Nat.mul_le_mul_right q2 hc]
    have key2 : q1 < 2 * r1 → q2 < 2 * r2 := by
      intro hc
      by_contra hn
      have hn : 2 * r2 ≤ q2 := by omega
      nlinarith [Nat.mul_le_mul_right q1 hn, Nat.mul_lt_mul_of_pos_right hc hq2]
    by_cases a1 : 2 * r1 < q1
    · rw [if_pos a1]
      split
      · exact le_refl _
      · split
        · omega
        · split <;> omega
    · rw [if_neg a1]
      have b1 : ¬ 2 * r2 < q2 := by
        have := key1 (by omega)
        omega
      rw [if_neg b1]
      by_cases a2 : q1 < 2 * r1
      · rw [if_pos a2, if_pos (key2 a2)]
      · rw [if_neg a2]
        by_cases b2 : q2 < 2 * r2
        · rw [if_pos b2]
          split <;> omega
        · rw [if_neg b2]

theorem bitLen_mono (a c : Nat) (h : a ≤ c) : bitLen a ≤ bitLen c := by
  rw [bitLen_le_iff]
  exact lt_of_le_of_lt h (bitLen_lt c)

theorem div_le_div_of_cross (p1 q1 p2 q2 : Nat) (hq1 : 0 < q1) (hq2 : 0 < q2)
    (h : p1 * q2 ≤ p2 * q1) : p1 / q1 ≤ p2 / q2 := by
  rw [Nat.le_div_iff_mul_le hq2]
  apply Nat.le_of_mul_le_mul_right _ hq1
  have : p1 / q1 * q1 ≤ p1 := Nat.div_mul_le_self p1 q1
  calc p1 / q1 * q2 * q1 = p1 / q1 * q1 * q2 := by ring
    _ ≤ p1 * q2 := Nat.mul_le_mul_right _ this
    _ ≤ p2 * q1 := h

/-- Rounding to float64 is monotone in the rational it rounds. -/
theorem round_mono (p1 q1 p2 q2 : Nat) (hq1 : 0 < q1) (hq2 : 0 < q2)
    (h : p1 * q2 ≤ p2 * q1) : (F64.round p1 q1).units ≤ (F64.round p2 q2).units := by
  have hn := div_le_div_of_cross p1 q1 p2 q2 hq1 hq2 h
  have hb := bitLen_mono _ _ hn
  unfold F64.round
  simp only
  by_cases heq : bitLen (p1 / q1) - 53 = bitLen (p2 / q2) - 53
  · rw [heq]
    apply Nat.mul_le_mul_right
    apply rne_mono _ _ _ _ (by positivity) (by positivity)
    calc p1 * (q2 * 2 ^ (bitLen (p2 / q2) - 53))
        = p1 * q2 * 2 ^ (bitLen (p2 / q2) - 53) := by ring
      _ ≤ p2 * q1 * 2 ^ (bitLen (p2 / q2) - 53) := Nat.mul_le_mul_right _ h
      _ = p2 * (q1 * 2 ^ (bitLen (p2 / q2) - 53)) := by ring
  · have hs : bitLen (p1 / q1) - 53 < bitLen (p2 / q2) - 53 := by omega
    generalize hs1 : bitLen (p1 / q1) - 53 = s1 at hs heq
    generalize hs2 : bitLen (p2 / q2) - 53 = s2 at hs heq
    have hL2 : bitLen (p2 / q2) = 53 + s2 := by omega
    have hn2 : p2 / q2 ≠ 0 := by
      intro h0
      rw [h0, bitLen_zero] at hL2
      omega
    have hup : rne p1 (q1 * 2 ^ s1) ≤ 2 ^ 53 := by
      have h1 : p1 / (q1 * 2 ^ s1) < 2 ^ 53 := by
        rw [← Nat.div_div_eq_div_mul, Nat.div_lt_iff_lt_mul (by positivity), ← pow_add,
          ← bitLen_le_iff]
        omega
      have := rne_le_succ p1 (q1 * 2 ^ s1)
      omega
    have hlo : 2 ^ 52 ≤ rne p2 (q2 * 2 ^ s2) := by
      have h1 : 2 ^ 52 ≤ p2 / (q2 * 2 ^ s2) := by
        rw [← Nat.div_div_eq_div_mul, Nat.le_div_iff_mul_le (by positivity), ← pow_add]
        have := bitLen_ge _ hn2
        rw [hL2] at this
        have e : 53 + s2 - 1 = 52 + s2 := by omega
        rw [e] at this
        exact this
      exact le_trans h1 (rne_floor_le _ _)
    calc rne p1 (q1 * 2 ^ s1) * 2 ^ s1 ≤ 2 ^ 53 * 2 ^ s1 := Nat.mul_le_mul_right _ hup
      _ = 2 ^ (53 + s1) := by rw [pow_add]
      _ ≤ 2 ^ (52 + s2) := Nat.pow_le_pow_right (by norm_num) (by omega)
      _ = 2 ^ 52 * 2 ^ s2 := by rw [pow_add]
      _ ≤ rne p2 (q2 * 2 ^ s2) * 2 ^ s2 := Nat.mul_le_mul_right _ hlo

/-- The conversion `float64(v)` of an unsigned integer is a whole number. -/
theorem ofNat_whole (v : Nat) : (F64.ofNat v).units % one = 0 := by
  unfold F64.ofNat F64.round
  simp only [Nat.div_one, Nat.one_mul]
  generalize bitLen (v * one) - 53 = sh
  by_cases hsh : sh ≤ fracBits
  · obtain ⟨d, hd⟩ := Nat.exists_eq_add_of_le hsh
    have e : v * one = 2 ^ sh * (v * 2 ^ d) := by
      unfold one
      rw [hd, pow_add]
      ring
    rw [e, rne_exact _ _ (by positivity)]
    have e2 : v * 2 ^ d * 2 ^ sh = v * one := by
      unfold one
      rw [hd, pow_add]
      ring
    rw [e2]
    exact Nat.mul_mod_left _ _
  · have hsh2 : fracBits ≤ sh := by omega
    obtain ⟨d, hd⟩ := Nat.exists_eq_add_of_le hsh2
    have e : 2 ^ sh = 2 ^ d * one := by
      unfold one
      rw [hd, pow_add]
      ring
    generalize rne (v * one) (2 ^ sh) = r
    rw [e, ← Nat.mul_assoc]
    exact Nat.mul_mod_left _ _

theorem ofNat_pow64 : (F64.round (2 ^ 64 * one) 1).units = 2 ^ 64 * one := by
  have h := round_exact 1 1 (64 + fracBits) (by norm_num) (by norm_num)
  have e : 2 ^ 64 * one = 1 * (1 * 2 ^ (64 + fracBits)) := by
    unfold one
    rw [pow_add]
    ring
  rw [e, h]
  simp

/-- The conversion `float64(v)` of a `uint64` is at most `2 ^ 64`. -/
theorem ofNat_le (v : Nat) (hv : v < 2 ^ 64) : (F64.ofNat v).units ≤ 2 ^ 64 * one := by
  rw [← ofNat_pow64]
  unfold F64.ofNat
  apply round_mono _ _ _ _ (by norm_num) (by norm_num)
  have : v * one ≤ 2 ^ 64 * one := Nat.mul_le_mul_right _ (by omega)
  omega

theorem toUint64_lt (tg : Target) (x : F64) : F64.toUint64 tg x < 2 ^ 64 := by
  unfold F64.toUint64
  split
  · assumption
  · exact Nat.mod_lt _ (by norm_num)

/-! ## The final conversion and the range check -/

theorem finish_nonwhole (tg : Target) (b : Nat) (s : String) (y : F64)
    (hy : y.isWhole = false) :
    (if F64.ofNat (F64.toUint64 tg y) ≠ y
      then (b, some (⟨fnUnmarshalText, s, .ErrSyntax⟩ : NumError))
      else (F64.toUint64 tg y, none)) = (b, some ⟨fnUnmarshalText, s, .ErrSyntax⟩) := by
  have h : F64.ofNat (F64.toUint64 tg y) ≠ y := by
    intro hc
    have hw := ofNat_whole (F64.toUint64 tg y)
    rw [hc] at hw
    unfold F64.isWhole at hy
    rw [decide_eq_false_iff_not] at hy
    exact hy hw
  rw [if_pos h]

theorem finish_huge (tg : Target) (b : Nat) (s : String) (y : F64)
    (hy : 2 ^ 64 * one < y.units) :
    (if F64.ofNat (F64.toUint64 tg y) ≠ y
      then (b, some (⟨fnUnmarshalText, s, .ErrSyntax⟩ : NumError))
      else (F64.toUint64 tg y, none)) = (b, some ⟨fnUnmarshalText, s, .ErrSyntax⟩) := by
  have h : F64.ofNat (F64.toUint64 tg y) ≠ y := by
    intro hc
    have hw := ofNat_le (F64.toUint64 tg y) (toUint64_lt tg y)
    rw [hc] at hw
    omega
  rw [if_pos h]

theorem ofNat_MaxUint64 : (F64.ofNat MaxUint64).units = 2 ^ 64 * one := by decide

theorem range_check_passes (p q U : Nat)
    (hU : U ∈ [KB, MB, GB, TB, PB, EB, KiB, MiB, GiB, TiB, PiB, EiB]) (hq : 0 < q)
    (hmax : p * U ≤ MaxUint64 * q) :
    F64.gt (F64.round (p * one) q) (rangeLimit U) = false := by
  obtain ⟨hof, _, _, hpos⟩ := unit_facts U hU
  unfold F64.gt
  rw [decide_eq_false_iff_not, Nat.not_lt]
  unfold rangeLimit F64.div
  rw [ofNat_MaxUint64, hof]
  apply round_mono _ _ _ _ hq (Nat.mul_pos hpos one_pos)
  have h1 : p * U ≤ 2 ^ 64 * q := by
    unfold MaxUint64 at hmax
    have : (2 ^ 64 - 1) * q ≤ 2 ^ 64 * q := Nat.mul_le_mul_right _ (by norm_num)
    omega
  calc p * one * (U * one) = p * U * (one * one) := by ring
    _ ≤ 2 ^ 64 * q * (one * one) := Nat.mul_le_mul_right _ h1
    _ = 2 ^ 64 * one * one * q := by ring

/-- Every result of `F64.round` has a significand below `2 ^ 53`. -/
theorem round_representable (p q : Nat) :
    ∃ M K, M < 2 ^ 53 ∧ (F64.round p q).units = M * 2 ^ K := by
  unfold F64.round
  dsimp only
  generalize hsh : bitLen (p / q) - 53 = sh
  have hR : rne p (q * 2 ^ sh) ≤ 2 ^ 53 := by
    have h1 := rne_le_succ p (q * 2 ^ sh)
    have h2 : p / (q * 2 ^ sh) < 2 ^ 53 := by
      rw [← Nat.div_div_eq_div_mul]
      apply Nat.div_lt_of_lt_mul
      have h3 := bitLen_lt (p / q)
      have h4 : bitLen (p / q) ≤ sh + 53 := by omega
      have h5 : 2 ^ bitLen (p / q) ≤ 2 ^ (sh + 53) := Nat.pow_le_pow_right (by norm_num) h4
      rw [pow_add] at h5
      omega
    omega
  by_cases h : rne p (q * 2 ^ sh) < 2 ^ 53
  · exact ⟨_, sh, h, rfl⟩
  · have e : rne p (q * 2 ^ sh) = 2 ^ 53 := by omega
    refine ⟨2 ^ 52, sh + 1, by norm_num, ?_⟩
    rw [e, pow_succ]
    ring

theorem isFloat64_of_round (p q N : Nat) (h : F64.round p q = ⟨N * one⟩) : isFloat64 N 1 := by
  obtain ⟨M, K, hM, hu⟩ := round_representable p q
  rw [h] at hu
  exact ⟨M, K, hM, by rw [Nat.one_mul]; exact hu⟩

theorem isFloat64_of_floatProduct (ip : List Char) (fr : Option (List Char)) (U N : Nat)
    (h : floatProduct ip fr U = ⟨N * one⟩) : isFloat64 N 1 := by
  unfold floatProduct at h
  by_cases h1 : U = 1
  · rw [if_pos h1] at h
    exact isFloat64_of_round _ _ N h
  · rw [if_neg h1] at h
    exact isFloat64_of_round _ _ N h

/-- After a number text with a digit and a non-empty spelling of the alias table, when the
number times the unit does not exceed `2 ^ 64 - 1`, `UnmarshalText` reaches the final
conversion (lines 265 to 271) with the float64 product of the number and the unit. -/
theorem unmarshal_floatProduct (tg : Target) (b : Nat) (ip : List Char)
    (fr : Option (List Char)) (a : String) (U : Nat) (hip : allDigits ip)
    (hfr : fracDigits fr) (hnum : hasDigit ip fr) (ha : isAlias a U)
    (hmax : numNumer ip fr * U ≤ MaxUint64 * numDenom fr) :
    UnmarshalText tg b ⟨numText ip fr ++ a.data⟩ =
      (if F64.ofNat (F64.toUint64 tg (floatProduct ip fr U)) ≠ floatProduct ip fr U
        then (b, some (⟨fnUnmarshalText, ⟨numText ip fr ++ a.data⟩, .ErrSyntax⟩ : NumError))
        else (F64.toUint64 tg (floatProduct ip fr U), none)) := by
  obtain ⟨row, hrow, hmem, hU, hne⟩ := ha
  obtain ⟨f1, f2, f3, f4, f5⟩ := alias_facts row hrow a hmem hne
  have h10 : 0 < numDenom fr := by unfold numDenom; positivity
  have hsw := unitSwitch_alias (F64.round (numNumer ip fr * one) (numDenom fr)) row hrow a hmem
  rw [hU] at hsw
  have hUpos : 0 < U := by
    by_cases h1 : U = 1
    · omega
    · exact (unit_facts U (hU ▸ scaled_units row hrow (hU ▸ h1))).2.2.2
  rw [UnmarshalText_numText tg b ip fr a.data hip hfr (alias_allUnitChars a f1) f2]
  unfold unmarshalGroups
  rw [ParseFloat_numText ip fr hip hfr]
  unfold hasDigit at hnum
  rw [if_neg hnum]
  change (match (if 2 ^ 1024 * one ≤ (F64.round (numNumer ip fr * one) (numDenom fr)).units
      then (Except.error ErrKind.ErrRange : Except ErrKind F64)
      else .ok (F64.round (numNumer ip fr * one) (numDenom fr))) with
    | .error e => _
    | .ok num => _) = _
  have hfin : ¬ 2 ^ 1024 * one ≤ (F64.round (numNumer ip fr * one) (numDenom fr)).units := by
    have h1 : (F64.round (numNumer ip fr * one) (numDenom fr)).units ≤ 2 ^ 64 * one := by
      rw [← ofNat_pow64]
      apply round_mono _ _ _ _ h10 (by norm_num)
      have hp : numNumer ip fr ≤ 2 ^ 64 * numDenom fr := by
        have h2 : numNumer ip fr ≤ numNumer ip fr * U := Nat.le_mul_of_pos_right _ hUpos
        have h3 : MaxUint64 * numDenom fr ≤ 2 ^ 64 * numDenom fr :=
          Nat.mul_le_mul_right _ (by unfold MaxUint64; norm_num)
        omega
      calc numNumer ip fr * one * 1 = numNumer ip fr * one := by ring
        _ ≤ 2 ^ 64 * numDenom fr * one := Nat.mul_le_mul_right _ hp
        _ = 2 ^ 64 * one * numDenom fr := by ring
    have h2 : 2 ^ 64 * one < 2 ^ 1024 * one :=
      Nat.mul_lt_mul_of_pos_right (Nat.pow_lt_pow_right (by norm_num) (by norm_num)) one_pos
    omega
  rw [if_neg hfin]
  simp only [f3]
  rw [if_neg f4]
  simp only [f5]
  rw [hsw]
  unfold floatProduct
  by_cases h1 : U = 1
  · simp only [if_pos h1]
  · simp only [if_neg h1]
    unfold scaleBy
    rw [range_check_passes _ _ U (hU ▸ scaled_units row hrow (hU ▸ h1)) h10 hmax]
    simp only [Bool.false_eq_true, if_false]

/-! ## Claim C1: exact parsing -/

/-- C1, refuted as stated: `1.001kb` is 1001 bytes, a whole number, yet parsing fails with
`ErrSyntax` because the float64 product is `1000.9999999999999`; and `9007199254740993b`
(`2 ^ 53 + 1` bytes) parses to `2 ^ 53`, because the number is first rounded to float64. -/
theorem parse_exact_counterexample :
    (isAlias "kb" KB ∧
      1001 * numDenom (some "001".data) = numNumer "1".data (some "001".data) * KB ∧
      ParseString Target.signBit "1.001kb" =
        (0, some ⟨fnUnmarshalText, "1.001kb", .ErrSyntax⟩)) ∧
    (isAlias "b" B ∧
      9007199254740993 * numDenom none = numNumer "9007199254740993".data none * B ∧
      ParseString Target.signBit "9007199254740993b" = (9007199254740992, none)) :=
  ⟨⟨⟨(["k", "kb", "kilo", "kilobyte", "kilobytes"], KB), by decide, by decide, rfl, by decide⟩,
      by decide, by decide⟩,
    ⟨⟨(["", "b", "byte"], B), by decide, by decide, rfl, by decide⟩, by decide, by decide⟩⟩

/-- C1, amended: for a number text with at least one digit followed by a non-empty spelling
of the alias table, if the number times the unit is a whole number `N ≤ 2 ^ 64 - 1` and the
float64 product the parser computes (the float64 nearest to the number, times the unit in
float64) is exactly `N`, then `UnmarshalText`, `Parse` and `ParseString` succeed and return
exactly `N`. -/
theorem parse_exact (tg : Target) (b0 : Nat) (ip : List Char) (fr : Option (List Char))
    (a : String) (U N : Nat) (hip : allDigits ip) (hfr : fracDigits fr)
    (hnum : hasDigit ip fr) (ha : isAlias a U)
    (hN : N * numDenom fr = numNumer ip fr * U) (h64 : N ≤ MaxUint64)
    (hfp : floatProduct ip fr U = ⟨N * one⟩) :
    UnmarshalText tg b0 ⟨numText ip fr ++ a.data⟩ = (N, none) ∧
      Parse tg ⟨numText ip fr ++ a.data⟩ = (N, none) ∧
      ParseString tg ⟨numText ip fr ++ a.data⟩ = (N, none) := by
  have h : N < 2 ^ 64 := by
    unfold MaxUint64 at h64
    omega
  have hmax : numNumer ip fr * U ≤ MaxUint64 * numDenom fr := by
    rw [← hN]
    exact Nat.mul_le_mul_right _ h64
  have hNf := isFloat64_of_floatProduct ip fr U N hfp
  have key : ∀ b, UnmarshalText tg b ⟨numText ip fr ++ a.data⟩ = (N, none) := by
    intro b
    rw [unmarshal_floatProduct tg b ip fr a U hip hfr hnum ha hmax, hfp]
    exact finish_exact tg b _ N hNf h
  exact ⟨key b0, key 0, key 0⟩

theorem parse_exact_witness :
    (allDigits "12".data ∧ fracDigits (some "13".data) ∧
      hasDigit "12".data (some "13".data) ∧ isAlias "kb" KB ∧
      12130 * numDenom (some "13".data) = numNumer "12".data (some "13".data) * KB ∧
      12130 ≤ MaxUint64 ∧
      floatProduct "12".data (some "13".data) KB = ⟨12130 * one⟩) ∧
    (UnmarshalText Target.signBit 7 "12.13kb" = (12130, none) ∧
      Parse Target.signBit "12.13kb" = (12130, none) ∧
      ParseString Target.signBit "12.13kb" = (12130, none)) :=
  ⟨⟨by unfold allDigits; decide, by unfold fracDigits allDigits; decide,
      by unfold hasDigit; decide,
      ⟨(["k", "kb", "kilo", "kilobyte", "kilobytes"], KB), by decide, by decide, rfl,
        by decide⟩,
      by decide, by decide, by decide⟩,
    parse_exact Target.signBit 7 "12".data (some "13".data) "kb" KB 12130
      (by unfold allDigits; decide) (by unfold fracDigits allDigits; decide)
      (by unfold hasDigit; decide)
      ⟨(["k", "kb", "kilo", "kilobyte", "kilobytes"], KB), by decide, by decide, rfl,
        by decide⟩
      (by decide) (by decide) (by decide)⟩

/-! ## Claims C2 and C3: overflow and fractional byte counts -/

/-- C3, refuted as stated: `1.00000000000000000001kb` is not a whole number of bytes, yet it
parses to 1000, because the fraction is lost when the number is rounded to float64. -/
theorem fraction_rejected_counterexample :
    isAlias "kb" KB ∧
      ¬ (numDenom (some "00000000000000000001".data) ∣
        numNumer "1".data (some "00000000000000000001".data) * KB) ∧
      numNumer "1".data (some "00000000000000000001".data) * KB ≤
        MaxUint64 * numDenom (some "00000000000000000001".data) ∧
      ParseString Target.signBit "1.00000000000000000001kb" = (1000, none) :=
  ⟨⟨(["k", "kb", "kilo", "kilobyte", "kilobytes"], KB), by decide, by decide, rfl, by decide⟩,
    by decide, by decide, by decide⟩

/-- C3, amended: for a number text followed by a non-empty spelling of the alias table, if
the number times the unit does not exceed `2 ^ 64 - 1` and the float64 product the parser
computes (the float64 nearest to the number, times the unit in float64) is not a whole
number, then `UnmarshalText` fails with `ErrSyntax` and leaves the receiver unchanged. -/
theorem fraction_rejected (tg : Target) (b : Nat) (ip : List Char) (fr : Option (List Char))
    (a : String) (U : Nat) (hip : allDigits ip) (hfr : fracDigits fr) (ha : isAlias a U)
    (hmax : numNumer ip fr * U ≤ MaxUint64 * numDenom fr)
    (hfrac : (floatProduct ip fr U).isWhole = false) :
    UnmarshalText tg b ⟨numText ip fr ++ a.data⟩ =
      (b, some ⟨fnUnmarshalText, ⟨numText ip fr ++ a.data⟩, .ErrSyntax⟩) := by
  obtain ⟨row, hrow, hmem, hU, hne⟩ := ha
  obtain ⟨f1, f2, f3, f4, f5⟩ := alias_facts row hrow a hmem hne
  have h10 : 0 < numDenom fr := by unfold numDenom; positivity
  have hsw := unitSwitch_alias (F64.round (numNumer ip fr * one) (numDenom fr)) row hrow a hmem
  rw [hU] at hsw
  have hUpos : 0 < U := by
    by_cases h1 : U = 1
    · omega
    · exact (unit_facts U (hU ▸ scaled_units row hrow (hU ▸ h1))).2.2.2
  rw [UnmarshalText_numText tg b ip fr a.data hip hfr (alias_allUnitChars a f1) f2]
  unfold unmarshalGroups
  rw [ParseFloat_numText ip fr hip hfr]
  by_cases hnum : ip = [] ∧ fr.getD [] = []
  · rw [if_pos hnum]
  · rw [if_neg hnum]
    change (match (if 2 ^ 1024 * one ≤ (F64.round (numNumer ip fr * one) (numDenom fr)).units
        then (Except.error ErrKind.ErrRange : Except ErrKind F64)
        else .ok (F64.round (numNumer ip fr * one) (numDenom fr))) with
      | .error e => _
      | .ok num => _) = _
    have hfin : ¬ 2 ^ 1024 * one ≤ (F64.round (numNumer ip fr * one) (numDenom fr)).units := by
      have h1 : (F64.round (numNumer ip fr * one) (numDenom fr)).units ≤ 2 ^ 64 * one := by
        rw [← ofNat_pow64]
        apply round_mono _ _ _ _ h10 (by norm_num)
        have hp : numNumer ip fr ≤ 2 ^ 64 * numDenom fr := by
          have h2 : numNumer ip fr ≤ numNumer ip fr * U := Nat.le_mul_of_pos_right _ hUpos
          have h3 : MaxUint64 * numDenom fr ≤ 2 ^ 64 * numDenom fr :=
            Nat.mul_le_mul_right _ (by unfold MaxUint64; norm_num)
          omega
        calc numNumer ip fr * one * 1 = numNumer ip fr * one := by ring
          _ ≤ 2 ^ 64 * numDenom fr * one := Nat.mul_le_mul_right _ hp
          _ = 2 ^ 64 * one * numDenom fr := by ring
      have h2 : 2 ^ 64 * one < 2 ^ 1024 * one :=
        Nat.mul_lt_mul_of_pos_right (Nat.pow_lt_pow_right (by norm_num) (by norm_num)) one_pos
      omega
    rw [if_neg hfin]
    simp only [f3]
    rw [if_neg f4]
    simp only [f5]
    rw [hsw]
    unfold floatProduct at hfrac
    by_cases h1 : U = 1
    · rw [if_pos h1] at hfrac ⊢
      exact finish_nonwhole tg b _ _ hfrac
    · rw [if_neg h1] at hfrac ⊢
      unfold scaleBy
      rw [range_check_passes _ _ U (hU ▸ scaled_units row hrow (hU ▸ h1)) h10 hmax]
      simp only [Bool.false_eq_true, if_false]
      exact finish_nonwhole tg b _ _ hfrac

theorem fraction_rejected_witness :
    (allDigits "1".data ∧ fracDigits (some "2".data) ∧ isAlias "b" B ∧
      numNumer "1".data (some "2".data) * B ≤ MaxUint64 * numDenom (some "2".data) ∧
      (floatProduct "1".data (some "2".data) B).isWhole = false) ∧
    UnmarshalText Target.signBit 7 "1.2b" = (7, some ⟨fnUnmarshalText, "1.2b", .ErrSyntax⟩) :=
  ⟨⟨by unfold allDigits; decide, by unfold fracDigits allDigits; decide,
      ⟨(["", "b", "byte"], B), by decide, by decide, rfl, by decide⟩, by decide, by decide⟩,
    fraction_rejected Target.signBit 7 "1".data (some "2".data) "b" B
      (by unfold allDigits; decide) (by unfold fracDigits allDigits; decide)
      ⟨(["", "b", "byte"], B), by decide, by decide, rfl, by decide⟩ (by decide) (by decide)⟩

theorem ParseFloat_hundred_quintillion :
    ParseFloat ("100000000000000000000".data ++ fracText none) =
      .ok ⟨100000000000000000000 * one⟩ := by
  rfl

/-- C2, the code at the failing input: `100000000000000000000b` is `10 ^ 20` bytes, more
than `2 ^ 64 - 1`, and on every target `UnmarshalText` reports `ErrSyntax`, not `ErrRange`:
the byte row of the switch has no range check.  In the scaled rows the range check lets
`2 ^ 64` itself through: `18014398509481984kib` is `2 ^ 64` bytes and is accepted with the
saturated value `2 ^ 64 - 1` on a target whose conversion saturates. -/
theorem overflow_not_range_error :
    (∀ (tg : Target) (b : Nat), UnmarshalText tg b "100000000000000000000b" =
      (b, some ⟨fnUnmarshalText, "100000000000000000000b", .ErrSyntax⟩)) ∧
    UnmarshalText Target.saturating 0 "18014398509481984kib" = (2 ^ 64 - 1, none) ∧
    UnmarshalText Target.signBit 0 "18014398509481984kib" =
      (0, some ⟨fnUnmarshalText, "18014398509481984kib", .ErrSyntax⟩) := by
  refine ⟨?_, by decide, by decide⟩
  intro tg b
  have hs : ("100000000000000000000b" : String) =
      ⟨numText "100000000000000000000".data none ++ "b".data⟩ := by decide
  rw [hs, UnmarshalText_numText tg b _ none "b".data (by unfold allDigits; decide) trivial
    (by unfold allUnitChars; decide) (by decide)]
  unfold unmarshalGroups
  rw [ParseFloat_hundred_quintillion]
  have h1 : (⟨TrimSpace "b".data⟩ : String) ∉ reserved := by decide
  simp only
  rw [if_neg h1]
  have h2 : unitSwitch ⟨ToLower (TrimSpace "b".data)⟩ ⟨100000000000000000000 * one⟩ =
      .ok ⟨100000000000000000000 * one⟩ := by rfl
  rw [h2]
  exact finish_huge tg b _ _ (Nat.mul_lt_mul_of_pos_right (by norm_num) one_pos)

/-! ## Claims C4 and C5: round trips -/

/-- C4, refuted as stated: 1025 is marshalled as `1.00KiB`, which unmarshals to 1024; and
1088 is marshalled as `1.06KiB`, which does not unmarshal at all. -/
theorem marshal_roundtrip_counterexample :
    ((MarshalText 1025).1 = "1.00KiB" ∧
      UnmarshalText Target.signBit 0 (MarshalText 1025).1 = (1024, none)) ∧
    ((MarshalText 1088).1 = "1.06KiB" ∧
      UnmarshalText Target.signBit 0 (MarshalText 1088).1 =
        (0, some ⟨fnUnmarshalText, "1.06KiB", .ErrSyntax⟩)) := by
  decide

/-- C4, amended: for every `b ≤ 2 ^ 64 - 1` whose text uses none of the binary units (it is
written in plain bytes or in a decimal unit, without a fraction), `UnmarshalText` on the
bytes returned by `MarshalText` succeeds and sets the receiver to `b`, and
`ParseString (String b)` returns `b` with no error. -/
theorem marshal_roundtrip (tg : Target) (b0 b : Nat) (h64 : b ≤ MaxUint64)
    (hint : ∀ k, 1 ≤ k → k ≤ 6 → ¬ usesBinary k (ByteSize.String b)) :
    UnmarshalText tg b0 (MarshalText b).1 = (b, none) ∧
      ParseString tg (ByteSize.String b) = (b, none) := by
  have h : b < 2 ^ 64 := by
    unfold MaxUint64 at h64
    omega
  have hf : ∀ j, form b ≠ .bin j := by
    intro j hj
    have hb : 0 < b := by
      rcases Nat.eq_zero_or_pos b with h0 | h0
      · have := (form_zero_iff b).2 h0
        rw [hj] at this
        exact absurd this (by simp)
      · exact h0
    rcases form_range b with hz | hby | ⟨k, hk1, hk6, hd | hbn⟩
    · rw [hj] at hz; exact absurd hz (by simp)
    · rw [hj] at hby; exact absurd hby (by simp)
    · rw [hj] at hd; exact absurd hd (by simp)
    · exact hint k hk1 hk6 ((String_bin_iff b k hb hk1 hk6).2 hbn)
  exact ⟨roundtrip_of_form tg b0 b h hf, roundtrip_of_form tg 0 b h hf⟩

theorem marshal_roundtrip_witness :
    (1020000 ≤ MaxUint64 ∧ ByteSize.String 1020000 = "1020KB") ∧
    (UnmarshalText Target.signBit 7 (MarshalText 1020000).1 = (1020000, none) ∧
      ParseString Target.signBit (ByteSize.String 1020000) = (1020000, none)) :=
  ⟨by decide, marshal_roundtrip Target.signBit 7 1020000 (by decide) (by
    intro k hk1 hk6
    unfold usesBinary
    interval_cases k <;> decide)⟩

/-- C5, refuted as stated: `1049 * KB` is formatted as `1.00MiB`, and that parses to
`1048576`, not to `1049000`. -/
theorem decimal_roundtrip_counterexample :
    1 ≤ 1049 ∧ 1049 * KB ≤ MaxUint64 ∧ ByteSize.String (1049 * KB) = "1.00MiB" ∧
      ParseString Target.signBit (ByteSize.String (1049 * KB)) = (1048576, none) := by
  decide

/-- C5, amended: for every decimal unit `D_k` and every `n ≥ 1` with `n * D_k ≤ 2 ^ 64 - 1`
and `n * D_k` below the binary unit of the next tier (`n * D_k < Bi_(k+1)`, no such bound
for EB), `ParseString (String (n * D_k))` returns `n * D_k` with no error. -/
theorem decimal_roundtrip (tg : Target) (k n : Nat) (hk1 : 1 ≤ k) (hk6 : k ≤ 6) (hn : 1 ≤ n)
    (h64 : n * decUnit k ≤ MaxUint64) (hlt : k < 6 → n * decUnit k < binUnit (k + 1)) :
    ParseString tg (ByteSize.String (n * decUnit k)) = (n * decUnit k, none) := by
  obtain ⟨d1, d2, d3, d4, d5, d6, d7⟩ := decUnit_values
  obtain ⟨b1, b2, b3, b4, b5, b6, b7⟩ := binUnit_values
  have h : n * decUnit k < 2 ^ 64 := by
    unfold MaxUint64 at h64
    omega
  have hpos : 0 < n * decUnit k := by
    interval_cases k <;> simp only [d1, d2, d3, d4, d5, d6] <;> omega
  apply roundtrip_of_form tg 0 _ h
  intro j hj
  rcases form_range (n * decUnit k) with hz | hby | ⟨i, hi1, hi6, hd | hbn⟩
  · rw [hj] at hz; exact absurd hz (by simp)
  · rw [hj] at hby; exact absurd hby (by simp)
  · rw [hj] at hd; exact absurd hd (by simp)
  · have hc := (form_bin_iff _ hpos i hi1 hi6).1 hbn
    revert hc hlt h
    generalize hb : n * decUnit k = b
    intro hlt h hc
    interval_cases k <;> interval_cases i <;>
      simp only [d1, d2, d3, d4, d5, d6, b1, b2, b3, b4, b5, b6, Nat.reduceAdd, Nat.reduceLT,
        true_implies, false_implies, Nat.lt_irrefl] at hb hlt hc <;>
      omega

theorem decimal_roundtrip_witness :
    (1 ≤ 1 ∧ 1 ≤ 6 ∧ 1 ≤ 1020 ∧ 1020 * decUnit 1 ≤ MaxUint64 ∧
      (1 < 6 → 1020 * decUnit 1 < binUnit 2)) ∧
    ParseString Target.signBit (ByteSize.String (1020 * decUnit 1)) =
      (1020 * decUnit 1, none) :=
  ⟨by decide, decimal_roundtrip Target.signBit 1 1020 (by decide) (by decide) (by decide)
    (by decide) (by decide)⟩

/-! ## Claims about `String` -/

theorem tailSig_of_bareB (s : String) (pre : List Char) (c : Char)
    (h : s.data = pre ++ [c, 'B']) : ∃ rest, tailSig s = 'B' :: c :: rest := by
  unfold tailSig
  rw [h]
  exact ⟨pre.reverse.take 1, by simp⟩

theorem form_of_bareB (b : Nat) (h : endsInBareB (render b (form b))) :
    form b = .zero ∨ form b = .bytes := by
  obtain ⟨a1, a2, a3, a4, a5, a6⟩ := decAbbrev_rev
  obtain ⟨c1, c2, c3, c4, c5, c6⟩ := binAbbrev_rev
  obtain ⟨pre, c, hs, hc⟩ := h
  obtain ⟨rest, ht⟩ := tailSig_of_bareB _ pre c hs
  rcases form_range b with hz | hby | ⟨j, hj1, hj6, hd | hbn⟩
  · exact Or.inl hz
  · exact Or.inr hby
  · have hr : render b (.dec j) = decimalForm j b := rfl
    rw [hd, hr, tailSig_dec b j hj1 hj6] at ht
    exfalso
    interval_cases j <;>
      simp only [a1, a2, a3, a4, a5, a6, List.cons_append, List.nil_append, List.cons.injEq,
        true_and] at ht <;>
      (rw [← ht.1] at hc; exact absurd hc (by decide))
  · rw [hbn, tailSig_bin b j hj1 hj6] at ht
    exfalso
    interval_cases j <;>
      simp only [c1, c2, c3, c4, c5, c6, List.cons.injEq, true_and] at ht <;>
      (rw [← ht.1] at hc; exact absurd hc (by decide))

/-- C6: for `b > 0` and a tier `k` from 1 to 6, `String(b)` is the decimal form of tier `k`
exactly when `D_k` divides `b`, `D_(k+1)` does not divide `b` and `b < Bi_(k+1)` (the last
two dropped for `k = 6`); and `String(b)` uses the binary unit `Bi_k` exactly when
`Bi_k ≤ b`, `b < Bi_(k+1)` (dropped for `k = 6`) and `D_k` does not divide `b`. -/
theorem String_unit_selection (b k : Nat) (hb : 0 < b) (hk1 : 1 ≤ k) (hk6 : k ≤ 6) :
    (ByteSize.String b = decimalForm k b ↔
      decUnit k ∣ b ∧ (k < 6 → ¬ decUnit (k + 1) ∣ b ∧ b < binUnit (k + 1))) ∧
    (usesBinary k (ByteSize.String b) ↔
      binUnit k ≤ b ∧ (k < 6 → b < binUnit (k + 1)) ∧ ¬ decUnit k ∣ b) :=
  ⟨(String_dec_iff b k hb hk1 hk6).trans (form_dec_iff b hb k hk1 hk6),
    (String_bin_iff b k hb hk1 hk6).trans (form_bin_iff b hb k hk1 hk6)⟩

theorem String_unit_selection_witness :
    (0 < 1020000 ∧ 1 ≤ 1 ∧ 1 ≤ 6) ∧
    ((ByteSize.String 1020000 = decimalForm 1 1020000 ↔
      decUnit 1 ∣ 1020000 ∧ (1 < 6 → ¬ decUnit 2 ∣ 1020000 ∧ 1020000 < binUnit 2)) ∧
    (usesBinary 1 (ByteSize.String 1020000) ↔
      binUnit 1 ≤ 1020000 ∧ (1 < 6 → 1020000 < binUnit 2) ∧ ¬ decUnit 1 ∣ 1020000)) :=
  ⟨by decide, String_unit_selection 1020000 1 (by decide) (by decide) (by decide)⟩

/-- C7, refuted as stated: 1049000 is a multiple of KB, and KB is the largest decimal unit
dividing it, yet `String` answers with the binary unit MiB and a fractional number. -/
theorem String_decimal_multiple_counterexample :
    KB ∣ 1049000 ∧ ¬ MB ∣ 1049000 ∧ ByteSize.String 1049000 = "1.00MiB" ∧
      ByteSize.String 1049000 ≠ decimalForm 1 1049000 := by
  decide

/-- C7, amended: a nonzero `b` whose largest dividing decimal unit is `D_k`, and which is
below the binary unit of the next tier (`b < Bi_(k+1)`, no bound for `k = 6`), is formatted
in decimal form: the integer quotient `b / D_k` followed by the abbreviation of `D_k`. -/
theorem String_decimal_multiple (b k : Nat) (hb : 0 < b) (hk1 : 1 ≤ k) (hk6 : k ≤ 6)
    (hdiv : decUnit k ∣ b) (hmax : k < 6 → ¬ decUnit (k + 1) ∣ b)
    (hlt : k < 6 → b < binUnit (k + 1)) :
    ByteSize.String b = decimalForm k b :=
  (String_dec_iff b k hb hk1 hk6).2
    ((form_dec_iff b hb k hk1 hk6).2 ⟨hdiv, fun h => ⟨hmax h, hlt h⟩⟩)

theorem String_decimal_multiple_witness :
    (0 < 1020000 ∧ 1 ≤ 1 ∧ 1 ≤ 6 ∧ decUnit 1 ∣ 1020000 ∧ (1 < 6 → ¬ decUnit 2 ∣ 1020000) ∧
      (1 < 6 → 1020000 < binUnit 2)) ∧ ByteSize.String 1020000 = "1020KB" :=
  ⟨by decide, String_decimal_multiple 1020000 1 (by decide) (by decide) (by decide)
    (by decide) (by decide) (by decide)⟩

/-- C8: `String(0)` is `0B`; for `0 < b < 1024` not a multiple of 1000, `String(b)` is the
decimal digits of `b` followed by `B`; and `String(b)` ends in a bare `B` (the character
before it is not a letter) only for `b = 0` or such `b`. -/
theorem String_plain_bytes (b : Nat) :
    ByteSize.String 0 = "0B" ∧
    (0 < b → b < 1024 → b % 1000 ≠ 0 → ByteSize.String b = ⟨fmtNat b ++ ['B']⟩) ∧
    (endsInBareB (ByteSize.String b) → b = 0 ∨ (0 < b ∧ b < 1024 ∧ b % 1000 ≠ 0)) := by
  refine ⟨by decide, ?_, ?_⟩
  · intro h0 h1 h2
    rw [String_eq_render, (form_bytes_iff b).2 ⟨h0, h1, h2⟩]
    rfl
  · intro h
    rw [String_eq_render] at h
    rcases form_of_bareB b h with hz | hby
    · exact Or.inl ((form_zero_iff b).1 hz)
    · exact Or.inr ((form_bytes_iff b).1 hby)

theorem String_plain_bytes_witness :
    (0 < 123 ∧ 123 < 1024 ∧ 123 % 1000 ≠ 0 ∧ endsInBareB (ByteSize.String 123)) ∧
      ByteSize.String 123 = "123B" ∧ (123 = 0 ∨ (0 < 123 ∧ 123 < 1024 ∧ 123 % 1000 ≠ 0)) :=
  ⟨⟨by decide, by decide, by decide, ⟨['1', '2'], '3', by decide, by decide⟩⟩,
    (String_plain_bytes 123).2.1 (by decide) (by decide) (by decide),
    (String_plain_bytes 123).2.2 ⟨['1', '2'], '3', by decide, by decide⟩⟩

/-! ## Claims about the unit text -/

/-- C9, refuted as stated: a number of 310 digits followed by the reserved unit `Kb` fails
with `ErrRange`, not `ErrSyntax`, because the number is read before the unit is looked at. -/
theorem reserved_rejected_counterexample :
    "Kb" ∈ reserved ∧
      UnmarshalText Target.signBit 0 ⟨List.replicate 310 '9' ++ "Kb".data⟩ =
        (0, some ⟨fnUnmarshalText, ⟨List.replicate 310 '9' ++ "Kb".data⟩, .ErrRange⟩) := by
  decide

/-- C9, amended: for every number text, any number of spaces before and after the unit, and
every reserved unit spelling, `UnmarshalText` fails and leaves the receiver unchanged; the
error is `ErrSyntax`, except that it is `ErrRange` when `strconv.ParseFloat` reports the
number as out of the float64 range. -/
theorem reserved_rejected (tg : Target) (b : Nat) (ip : List Char) (fr : Option (List Char))
    (i j : Nat) (r : String) (hip : allDigits ip) (hfr : fracDigits fr) (hr : r ∈ reserved) :
    UnmarshalText tg b
        ⟨numText ip fr ++ (List.replicate i ' ' ++ r.data ++ List.replicate j ' ')⟩ =
      (b, some ⟨fnUnmarshalText,
        ⟨numText ip fr ++ (List.replicate i ' ' ++ r.data ++ List.replicate j ' ')⟩,
        if outOfFloatRange (numText ip fr) then .ErrRange else .ErrSyntax⟩) := by
  have hal := reserved_alpha r hr
  have hu : allUnitChars (List.replicate i ' ' ++ r.data ++ List.replicate j ' ') := by
    intro c hc
    simp only [List.mem_append] at hc
    rcases hc with (hc | hc) | hc
    · rw [List.eq_of_mem_replicate hc]; decide
    · unfold isUnitChar
      rw [hal c hc]
      rfl
    · rw [List.eq_of_mem_replicate hc]; decide
  have hne : List.replicate i ' ' ++ r.data ++ List.replicate j ' ' ≠ [] := by
    have hh := reserved_head_upper r hr
    intro h
    simp only [List.append_eq_nil, List.replicate_eq_nil_iff] at h
    rw [h.1.2] at hh
    simp at hh
  rw [UnmarshalText_numText tg b ip fr _ hip hfr hu hne]
  unfold unmarshalGroups
  have hn : numText ip fr = ip ++ fracText fr := rfl
  unfold outOfFloatRange
  rw [hn]
  cases hpf : ParseFloat (ip ++ fracText fr) with
  | error e =>
    cases e <;> simp
  | ok num =>
    have ht : TrimSpace (List.replicate i ' ' ++ r.data ++ List.replicate j ' ') = r.data :=
      TrimSpace_pad i j r.data (fun c hc => alpha_not_space c (hal c hc))
    simp only [ht]
    rw [if_pos hr]
    simp

theorem reserved_rejected_witness :
    (allDigits "1".data ∧ fracDigits none ∧ "Kb" ∈ reserved) ∧
      UnmarshalText Target.signBit 7 "1 Kb  " =
        (7, some ⟨fnUnmarshalText, "1 Kb  ", .ErrSyntax⟩) :=
  ⟨⟨by unfold allDigits; decide, trivial, by decide⟩,
    reserved_rejected Target.signBit 7 "1".data none 1 2 "Kb" (by unfold allDigits; decide)
      trivial (by decide)⟩

/-- C10: for every number text `n` and unit text `u` of letters and spaces whose trimmed form
is not one of the twelve reserved literals, `ParseString (n ++ u)` and
`ParseString (n ++ lowercase u)` give the same value and the same error kind. -/
theorem unit_case_insensitive (tg : Target) (ip : List Char) (fr : Option (List Char))
    (u : List Char) (hip : allDigits ip) (hfr : fracDigits fr) (hu : allUnitChars u)
    (hres : (⟨TrimSpace u⟩ : String) ∉ reserved) :
    (ParseString tg ⟨numText ip fr ++ u⟩).1 = (ParseString tg ⟨numText ip fr ++ ToLower u⟩).1 ∧
      errKind (ParseString tg ⟨numText ip fr ++ u⟩) =
        errKind (ParseString tg ⟨numText ip fr ++ ToLower u⟩) := by
  by_cases hne : u = []
  · subst hne
    exact ⟨rfl, rfl⟩
  · have hne2 : ToLower u ≠ [] := by
      intro h
      exact hne (List.map_eq_nil_iff.1 h)
    show (UnmarshalText tg 0 _).1 = (UnmarshalText tg 0 _).1 ∧
      errKind (UnmarshalText tg 0 _) = errKind (UnmarshalText tg 0 _)
    rw [UnmarshalText_numText tg 0 ip fr u hip hfr hu hne,
      UnmarshalText_numText tg 0 ip fr _ hip hfr (allUnitChars_ToLower u hu) hne2]
    apply unmarshalGroups_congr
    · exact hres
    · rw [TrimSpace_ToLower]
      exact ToLower_not_reserved _
    · rw [TrimSpace_ToLower, ToLower_ToLower]

theorem unit_case_insensitive_witness :
    (allDigits "2".data ∧ fracDigits none ∧ allUnitChars "KiB ".data ∧
      (⟨TrimSpace "KiB ".data⟩ : String) ∉ reserved) ∧
    ((ParseString Target.signBit "2KiB ").1 = (ParseString Target.signBit "2kib ").1 ∧
      errKind (ParseString Target.signBit "2KiB ") =
        errKind (ParseString Target.signBit "2kib ")) :=
  ⟨⟨by unfold allDigits; decide, trivial, by unfold allUnitChars; decide, by decide⟩,
    unit_case_insensitive Target.signBit "2".data none "KiB ".data
      (by unfold allDigits; decide) trivial (by unfold allUnitChars; decide) (by decide)⟩

/-! ## Outcomes of `UnmarshalText`: entry points, error shape, receiver -/

theorem unmarshalGroups_outcome (tg : Target) (b : Nat) (s : String) (g1 g2 g3 : List Char) :
    (∃ v, unmarshalGroups tg b s g1 g2 g3 = (v, none)) ∨
      ∃ e, unmarshalGroups tg b s g1 g2 g3 = (b, some ⟨fnUnmarshalText, s, e⟩) := by
  unfold unmarshalGroups
  cases ParseFloat (g1 ++ g2) with
  | error e => exact Or.inr ⟨e, rfl⟩
  | ok num =>
    by_cases hr : (⟨TrimSpace g3⟩ : String) ∈ reserved
    · exact Or.inr ⟨.ErrSyntax, by simp only [if_pos hr]⟩
    · simp only [if_neg hr]
      cases unitSwitch ⟨ToLower (TrimSpace g3)⟩ num with
      | error e => exact Or.inr ⟨e, rfl⟩
      | ok x =>
        by_cases hv : F64.ofNat (F64.toUint64 tg x) ≠ x
        · exact Or.inr ⟨.ErrSyntax, by simp only [if_pos hv]⟩
        · exact Or.inl ⟨F64.toUint64 tg x, by simp only [if_neg hv]⟩

theorem UnmarshalText_outcome (tg : Target) (b : Nat) (s : String) :
    (∃ v, UnmarshalText tg b s = (v, none)) ∨
      ∃ e, UnmarshalText tg b s = (b, some ⟨fnUnmarshalText, s, e⟩) := by
  unfold UnmarshalText
  dsimp only
  generalize FindStringSubmatch s.data = r
  cases r with
  | none => exact Or.inr ⟨.ErrSyntax, rfl⟩
  | some ss =>
    by_cases hw : ss.whole ≠ s.data
    · exact Or.inr ⟨.ErrSyntax, by simp only [if_pos hw]⟩
    · simp only [if_neg hw]
      exact unmarshalGroups_outcome tg b s ss.g1 ss.g2 ss.g3

/-- C16: the four entry points agree. `ParseString` of the text equals `Parse` of the same
bytes, which is `UnmarshalText` on a zero receiver; when `Parse` returns `(v, nil)` both
`MustParse` and `MustParseString` return `v`; when `Parse` returns an error `e` both panic
with exactly `e` (a panic is modelled as `Except.error e`). -/
theorem entry_points_agree (tg : Target) (t : String) :
    ParseString tg t = Parse tg t ∧ Parse tg t = UnmarshalText tg 0 t ∧
      (∀ v, Parse tg t = (v, none) →
        MustParse tg t = .ok v ∧ MustParseString tg t = .ok v) ∧
      (∀ v e, Parse tg t = (v, some e) →
        MustParse tg t = .error e ∧ MustParseString tg t = .error e) := by
  refine ⟨rfl, rfl, ?_, ?_⟩
  · intro v h
    unfold MustParseString MustParse
    rw [h]
    exact ⟨rfl, rfl⟩
  · intro v e h
    unfold MustParseString MustParse
    rw [h]
    exact ⟨rfl, rfl⟩

theorem entry_points_agree_witness :
    (Parse Target.signBit "2kb" = (2000, none) ∧
      Parse Target.signBit "2" = (0, some ⟨fnUnmarshalText, "2", .ErrSyntax⟩)) ∧
    (MustParse Target.signBit "2kb" = .ok 2000 ∧
      MustParseString Target.signBit "2kb" = .ok 2000) ∧
    (MustParse Target.signBit "2" = .error ⟨fnUnmarshalText, "2", .ErrSyntax⟩ ∧
      MustParseString Target.signBit "2" = .error ⟨fnUnmarshalText, "2", .ErrSyntax⟩) :=
  ⟨⟨by decide, by decide⟩,
    (entry_points_agree Target.signBit "2kb").2.2.1 2000 (by decide),
    (entry_points_agree Target.signBit "2").2.2.2 0 _ (by decide)⟩

/-- C17: whenever `UnmarshalText` fails on input `s` (for any receiver, so also through
`Parse` and `ParseString`, which call it on a zero receiver), the error has
`Func = "UnmarshalText"`, `Num = s` (the whole original input) and `Err` equal to
`ErrSyntax` or `ErrRange`. -/
theorem error_shape (tg : Target) (b : Nat) (s : String) (e : NumError)
    (h : (UnmarshalText tg b s).2 = some e) :
    e.Func = "UnmarshalText" ∧ e.Num = s ∧ (e.Err = .ErrSyntax ∨ e.Err = .ErrRange) := by
  rcases UnmarshalText_outcome tg b s with ⟨v, hv⟩ | ⟨k, hk⟩
  · rw [hv] at h
    cases h
  · rw [hk] at h
    cases h
    refine ⟨rfl, rfl, ?_⟩
    cases k
    · exact Or.inl rfl
    · exact Or.inr rfl

theorem error_shape_witness :
    (UnmarshalText Target.signBit 5 "1.2.3MB").2 =
        some ⟨"UnmarshalText", "1.2.3MB", .ErrSyntax⟩ ∧
      ((⟨"UnmarshalText", "1.2.3MB", .ErrSyntax⟩ : NumError).Func = "UnmarshalText" ∧
        (⟨"UnmarshalText", "1.2.3MB", .ErrSyntax⟩ : NumError).Num = "1.2.3MB" ∧
        ((⟨"UnmarshalText", "1.2.3MB", .ErrSyntax⟩ : NumError).Err = .ErrSyntax ∨
          (⟨"UnmarshalText", "1.2.3MB", .ErrSyntax⟩ : NumError).Err = .ErrRange)) :=
  ⟨by decide, error_shape Target.signBit 5 "1.2.3MB" _ (by decide)⟩

/-- C18: no partial results. If `UnmarshalText` returns an error, the receiver still holds
its prior value `b0`; consequently `Parse` and `ParseString` return the value 0 together
with every error. -/
theorem no_partial_results (tg : Target) (b0 : Nat) (t : String)
    (h : (UnmarshalText tg b0 t).2 ≠ none) :
    (UnmarshalText tg b0 t).1 = b0 ∧
      ((Parse tg t).2 ≠ none → (Parse tg t).1 = 0) ∧
      ((ParseString tg t).2 ≠ none → (ParseString tg t).1 = 0) := by
  have key : ∀ b, (UnmarshalText tg b t).2 ≠ none → (UnmarshalText tg b t).1 = b := by
    intro b hb
    rcases UnmarshalText_outcome tg b t with ⟨v, hv⟩ | ⟨k, hk⟩
    · rw [hv] at hb
      exact absurd rfl hb
    · rw [hk]
  exact ⟨key b0 h, key 0, key 0⟩

theorem no_partial_results_witness :
    (UnmarshalText Target.signBit 42 "1Kb").2 ≠ none ∧
      ((UnmarshalText Target.signBit 42 "1Kb").1 = 42 ∧
        ((Parse Target.signBit "1Kb").2 ≠ none → (Parse Target.signBit "1Kb").1 = 0) ∧
        ((ParseString Target.signBit "1Kb").2 ≠ none →
          (ParseString Target.signBit "1Kb").1 = 0)) :=
  ⟨by decide, no_partial_results Target.signBit 42 "1Kb" (by decide)⟩

/-! ## Inputs without a unit character, inputs without a digit -/

theorem takeWhile_nil_of_none {p : Char → Bool} (l : List Char) (h : ∀ c ∈ l, p c = false) :
    l.takeWhile p = [] := by
  cases l with
  | nil => rfl
  | cons c t => simp [List.takeWhile_cons, h c (List.mem_cons_self _ _)]

theorem matchHere_no_unit (s : List Char) (h : ∀ c ∈ s, isUnitChar c = false) :
    matchHere s = none := by
  unfold matchHere
  have hg : ((s.dropWhile Char.isDigit).drop
      (fracGroup (s.dropWhile Char.isDigit)).length).takeWhile isUnitChar = [] := by
    apply takeWhile_nil_of_none
    intro c hc
    exact h c ((List.dropWhile_sublist _).subset (List.mem_of_mem_drop hc))
  simp only [hg, if_true]

theorem Find_no_unit (s : List Char) (h : ∀ c ∈ s, isUnitChar c = false) :
    FindStringSubmatch s = none := by
  induction s with
  | nil => rfl
  | cons c t ih =>
    unfold FindStringSubmatch
    rw [matchHere_no_unit (c :: t) h]
    exact ih (fun d hd => h d (List.mem_cons_of_mem _ hd))

theorem UnmarshalText_no_unit (tg : Target) (b : Nat) (t : String)
    (h : ∀ c ∈ t.data, isUnitChar c = false) :
    UnmarshalText tg b t = (b, some ⟨fnUnmarshalText, t, .ErrSyntax⟩) := by
  unfold UnmarshalText
  dsimp only
  rw [Find_no_unit t.data h]

theorem numText_no_unit (ip : List Char) (fr : Option (List Char)) (hip : allDigits ip)
    (hfr : fracDigits fr) : ∀ c ∈ numText ip fr, isUnitChar c = false := by
  intro c hc
  unfold numText at hc
  rcases List.mem_append.1 hc with h | h
  · exact digit_not_unit c (hip c h)
  · cases fr with
    | none => cases h
    | some fp =>
      rcases List.mem_cons.1 h with h | h
      · subst h
        decide
      · exact digit_not_unit c (hfr c h)

theorem fracGroup_no_digit (s : List Char) (h : ∀ c ∈ s, c.isDigit = false) :
    fracGroup s = [] ∨ fracGroup s = ['.'] := by
  unfold fracGroup
  split
  · rename_i t
    right
    rw [takeWhile_nil_of_none t (fun c hc => h c (List.mem_cons_of_mem _ hc))]
  · left
    rfl

theorem ParseFloat_nil : ParseFloat [] = .error .ErrSyntax := rfl

theorem ParseFloat_dot : ParseFloat ['.'] = .error .ErrSyntax := rfl

theorem matchHere_no_digit (s : List Char) (ss : Submatch) (h : ∀ c ∈ s, c.isDigit = false)
    (hm : matchHere s = some ss) : ParseFloat (ss.g1 ++ ss.g2) = .error .ErrSyntax := by
  unfold matchHere at hm
  rw [takeWhile_nil_of_none s h, dropWhile_none s h] at hm
  dsimp only at hm
  split at hm
  · cases hm
  · cases hm
    dsimp only
    rcases fracGroup_no_digit s h with e | e
    · rw [e]
      exact ParseFloat_nil
    · rw [e]
      exact ParseFloat_dot

theorem Find_no_digit (s : List Char) (ss : Submatch) (h : ∀ c ∈ s, c.isDigit = false)
    (hm : FindStringSubmatch s = some ss) : ParseFloat (ss.g1 ++ ss.g2) = .error .ErrSyntax := by
  induction s with
  | nil => cases hm
  | cons c t ih =>
    unfold FindStringSubmatch at hm
    cases hh : matchHere (c :: t) with
    | some m =>
      rw [hh] at hm
      cases hm
      exact matchHere_no_digit (c :: t) _ h hh
    | none =>
      rw [hh] at hm
      exact ih (fun d hd => h d (List.mem_cons_of_mem _ hd)) hm

/-- C13: an input that consists only of digits with an optional `.` and further digits (no
letter or space at all) makes `UnmarshalText` fail with `ErrSyntax` and leaves the receiver
unchanged, even though the alias table has a row mapping the empty unit to bytes. -/
theorem bare_number_rejected (tg : Target) (b : Nat) (ip : List Char)
    (fr : Option (List Char)) (hip : allDigits ip) (hfr : fracDigits fr) :
    UnmarshalText tg b ⟨numText ip fr⟩ =
        (b, some ⟨fnUnmarshalText, ⟨numText ip fr⟩, .ErrSyntax⟩) ∧
      Parse tg ⟨numText ip fr⟩ = (0, some ⟨fnUnmarshalText, ⟨numText ip fr⟩, .ErrSyntax⟩) ∧
      ∃ row ∈ aliasTable, "" ∈ row.1 ∧ row.2 = B :=
  ⟨UnmarshalText_no_unit tg b _ (numText_no_unit ip fr hip hfr),
    UnmarshalText_no_unit tg 0 _ (numText_no_unit ip fr hip hfr),
    ⟨(["", "b", "byte"], B), by decide, by decide, rfl⟩⟩

theorem bare_number_rejected_witness :
    (allDigits "1".data ∧ fracDigits (some "2".data)) ∧
      (UnmarshalText Target.signBit 9 "1.2" =
          (9, some ⟨fnUnmarshalText, "1.2", .ErrSyntax⟩) ∧
        Parse Target.signBit "1.2" = (0, some ⟨fnUnmarshalText, "1.2", .ErrSyntax⟩) ∧
        ∃ row ∈ aliasTable, "" ∈ row.1 ∧ row.2 = B) :=
  ⟨⟨by unfold allDigits; decide, by unfold fracDigits allDigits; decide⟩,
    bare_number_rejected Target.signBit 9 "1".data (some "2".data)
      (by unfold allDigits; decide) (by unfold fracDigits allDigits; decide)⟩

/-- C14: an input that contains no digit character (a bare unit such as "KB", a lone ".",
".MB", or anything else without a digit) makes `UnmarshalText` fail with `ErrSyntax` and
leaves the receiver unchanged; so does `Parse`. -/
theorem number_required (tg : Target) (b : Nat) (t : String)
    (h : ∀ c ∈ t.data, c.isDigit = false) :
    UnmarshalText tg b t = (b, some ⟨fnUnmarshalText, t, .ErrSyntax⟩) ∧
      Parse tg t = (0, some ⟨fnUnmarshalText, t, .ErrSyntax⟩) := by
  have key : ∀ b0, UnmarshalText tg b0 t = (b0, some ⟨fnUnmarshalText, t, .ErrSyntax⟩) := by
    intro b0
    unfold UnmarshalText
    dsimp only
    cases hF : FindStringSubmatch t.data with
    | none => rfl
    | some ss =>
      dsimp only
      by_cases hw : ss.whole ≠ t.data
      · rw [if_pos hw]
      · rw [if_neg hw]
        unfold unmarshalGroups
        rw [Find_no_digit t.data ss h hF]
  exact ⟨key b, key 0⟩

theorem number_required_witness :
    (∀ c ∈ ".MB".data, c.isDigit = false) ∧
      (UnmarshalText Target.signBit 9 ".MB" =
          (9, some ⟨fnUnmarshalText, ".MB", .ErrSyntax⟩) ∧
        Parse Target.signBit ".MB" = (0, some ⟨fnUnmarshalText, ".MB", .ErrSyntax⟩)) :=
  ⟨by decide, number_required Target.signBit 9 ".MB" (by decide)⟩

/-! ## Aliases, spaces around the unit, unknown units -/

theorem unmarshalGroups_congr_switch (tg : Target) (b : Nat) (s s2 : String)
    (g1 g2 g3 h3 : List Char)
    (hr : (⟨TrimSpace g3⟩ : String) ∈ reserved ↔ (⟨TrimSpace h3⟩ : String) ∈ reserved)
    (hs : ∀ num, unitSwitch ⟨ToLower (TrimSpace g3)⟩ num =
      unitSwitch ⟨ToLower (TrimSpace h3)⟩ num) :
    (unmarshalGroups tg b s g1 g2 g3).1 = (unmarshalGroups tg b s2 g1 g2 h3).1 ∧
      errKind (unmarshalGroups tg b s g1 g2 g3) = errKind (unmarshalGroups tg b s2 g1 g2 h3) := by
  unfold unmarshalGroups
  cases ParseFloat (g1 ++ g2) with
  | error e => exact ⟨rfl, rfl⟩
  | ok num =>
    dsimp only
    by_cases h : (⟨TrimSpace g3⟩ : String) ∈ reserved
    · rw [if_pos h, if_pos (hr.1 h)]
      exact ⟨rfl, rfl⟩
    · rw [if_neg h, if_neg (fun k => h (hr.2 k)), hs num]
      cases unitSwitch ⟨ToLower (TrimSpace h3)⟩ num with
      | error e => exact ⟨rfl, rfl⟩
      | ok y =>
        dsimp only
        by_cases hv : F64.ofNat (F64.toUint64 tg y) ≠ y
        · rw [if_pos hv, if_pos hv]
          exact ⟨rfl, rfl⟩
        · rw [if_neg hv, if_neg hv]
          exact ⟨rfl, rfl⟩

theorem alias_unit_pos : ∀ row ∈ aliasTable, 0 < row.2 := by decide

theorem TrimSpace_spaces (k : Nat) : TrimSpace (List.replicate k ' ') = [] := by
  have h := TrimSpace_pad k 0 [] (fun c hc => by cases hc)
  simpa using h

theorem TrimSpace_letters (u : List Char) (hu : ∀ c ∈ u, c.isAlpha = true) :
    TrimSpace u = u := by
  have h := TrimSpace_pad 0 0 u (fun c hc => alpha_not_space c (hu c hc))
  simpa using h

theorem unitSwitch_unknown (unit : String) (num : F64)
    (h : ∀ row ∈ aliasTable, unit ∉ row.1) : unitSwitch unit num = .error .ErrSyntax := by
  unfold aliasTable at h
  simp only [List.forall_mem_cons] at h
  obtain ⟨h0, h1, h2, h3, h4, h5, h6, h7, h8, h9, h10, h11, h12, -⟩ := h
  unfold unitSwitch
  rw [if_neg h0, if_neg h1, if_neg h2, if_neg h3, if_neg h4, if_neg h5, if_neg h6, if_neg h7,
    if_neg h8, if_neg h9, if_neg h10, if_neg h11, if_neg h12]

theorem dot_mem_fmtFloat2 (x : F64) : '.' ∈ fmtFloat2 x := by
  unfold fmtFloat2
  simp

/-- C11: two non-empty spellings of the same row of the alias table are interchangeable:
for every number text the two inputs give the same value and the same error kind; and for a
whole number `n` (one or more digits) with `n * unit < 2^53` both succeed with `n * unit`. -/
theorem alias_equivalence (tg : Target) (ip : List Char) (fr : Option (List Char))
    (row : List String × Nat) (a1 a2 : String) (hip : allDigits ip) (hfr : fracDigits fr)
    (hrow : row ∈ aliasTable) (h1 : a1 ∈ row.1) (h2 : a2 ∈ row.1) (n1 : a1 ≠ "")
    (n2 : a2 ≠ "") :
    ((ParseString tg ⟨numText ip fr ++ a1.data⟩).1 =
        (ParseString tg ⟨numText ip fr ++ a2.data⟩).1 ∧
      errKind (ParseString tg ⟨numText ip fr ++ a1.data⟩) =
        errKind (ParseString tg ⟨numText ip fr ++ a2.data⟩)) ∧
    (ip ≠ [] → digitsVal ip * row.2 < 2 ^ 53 →
      ParseString tg ⟨ip ++ a1.data⟩ = (digitsVal ip * row.2, none) ∧
        ParseString tg ⟨ip ++ a2.data⟩ = (digitsVal ip * row.2, none)) := by
  obtain ⟨u1, e1, t1, r1, l1⟩ := alias_facts row hrow a1 h1 n1
  obtain ⟨u2, e2, t2, r2, l2⟩ := alias_facts row hrow a2 h2 n2
  constructor
  · show (UnmarshalText tg 0 _).1 = (UnmarshalText tg 0 _).1 ∧
      errKind (UnmarshalText tg 0 _) = errKind (UnmarshalText tg 0 _)
    rw [UnmarshalText_numText tg 0 ip fr a1.data hip hfr (alias_allUnitChars a1 u1) e1,
      UnmarshalText_numText tg 0 ip fr a2.data hip hfr (alias_allUnitChars a2 u2) e2]
    apply unmarshalGroups_congr_switch
    · rw [t1, t2]
      exact ⟨fun h => absurd h r1, fun h => absurd h r2⟩
    · intro num
      rw [t1, t2, l1, l2]
      show unitSwitch a1 num = unitSwitch a2 num
      rw [unitSwitch_alias num row hrow a1 h1, unitSwitch_alias num row hrow a2 h2]
  · intro hne hlt
    have hpos := alias_unit_pos row hrow
    have hle : digitsVal ip ≤ digitsVal ip * row.2 := Nat.le_mul_of_pos_right _ hpos
    have key : ∀ a : String, a ∈ row.1 → a ≠ "" →
        ParseString tg ⟨ip ++ a.data⟩ = (digitsVal ip * row.2, none) := by
      intro a ha na
      have h := unmarshal_exact tg 0 ip none a row.2 (digitsVal ip * row.2) hip trivial
        (by unfold hasDigit; exact fun h => hne h.1) ⟨row, hrow, ha, rfl, na⟩
        (by
          have e : numNumer ip none = digitsVal ip := by simp [numNumer]
          rw [e, numDenom_none]
          exact isFloat64_of_lt _ (lt_of_le_of_lt hle hlt))
        (by
          have e : numNumer ip none = digitsVal ip := by simp [numNumer]
          rw [e, numDenom_none, Nat.mul_one])
        (isFloat64_of_lt _ hlt)
        (lt_trans hlt (by norm_num))
      rw [numText_none] at h
      exact h
    exact ⟨key a1 h1 n1, key a2 h2 n2⟩

theorem alias_equivalence_witness :
    (allDigits "3".data ∧ fracDigits none ∧
      (["m", "mb", "mega", "megabyte", "megabytes"], MB) ∈ aliasTable ∧
      "mega" ∈ ["m", "mb", "mega", "megabyte", "megabytes"] ∧
      "mb" ∈ ["m", "mb", "mega", "megabyte", "megabytes"] ∧
      "3".data ≠ [] ∧ digitsVal "3".data * MB < 2 ^ 53) ∧
    (ParseString Target.signBit "3mega" = (3000000, none) ∧
      ParseString Target.signBit "3mb" = (3000000, none)) :=
  ⟨⟨by unfold allDigits; decide, trivial, by decide, by decide, by decide, by decide,
      by decide⟩,
    (alias_equivalence Target.signBit "3".data none
      (["m", "mb", "mega", "megabyte", "megabytes"], MB) "mega" "mb"
      (by unfold allDigits; decide) trivial (by decide) (by decide) (by decide) (by decide)
      (by decide)).2 (by decide) (by decide)⟩

/-- C15: for every number text `n`, every unit word `u` of one or more ASCII letters and all
`i`, `j`, the inputs `n ++ i spaces ++ u ++ j spaces` and `n ++ u` give the same value and
the same error kind. -/
theorem whitespace_tolerance (tg : Target) (ip : List Char) (fr : Option (List Char))
    (u : List Char) (i j : Nat) (hip : allDigits ip) (hfr : fracDigits fr)
    (hu : ∀ c ∈ u, c.isAlpha = true) (hne : u ≠ []) :
    (ParseString tg ⟨numText ip fr ++ (List.replicate i ' ' ++ u ++ List.replicate j ' ')⟩).1 =
        (ParseString tg ⟨numText ip fr ++ u⟩).1 ∧
      errKind
          (ParseString tg ⟨numText ip fr ++ (List.replicate i ' ' ++ u ++ List.replicate j ' ')⟩) =
        errKind (ParseString tg ⟨numText ip fr ++ u⟩) := by
  have hu1 : allUnitChars u := by
    intro c hc
    unfold isUnitChar
    rw [hu c hc]
    rfl
  have hu2 : allUnitChars (List.replicate i ' ' ++ u ++ List.replicate j ' ') := by
    intro c hc
    simp only [List.mem_append] at hc
    rcases hc with (hc | hc) | hc
    · rw [List.eq_of_mem_replicate hc]; decide
    · exact hu1 c hc
    · rw [List.eq_of_mem_replicate hc]; decide
  have hne2 : List.replicate i ' ' ++ u ++ List.replicate j ' ' ≠ [] := by
    intro h
    simp only [List.append_eq_nil] at h
    exact hne h.1.2
  have ht : TrimSpace (List.replicate i ' ' ++ u ++ List.replicate j ' ') = TrimSpace u := by
    rw [TrimSpace_letters u hu]
    exact TrimSpace_pad i j u (fun c hc => alpha_not_space c (hu c hc))
  show (UnmarshalText tg 0 _).1 = (UnmarshalText tg 0 _).1 ∧
    errKind (UnmarshalText tg 0 _) = errKind (UnmarshalText tg 0 _)
  rw [UnmarshalText_numText tg 0 ip fr _ hip hfr hu2 hne2,
    UnmarshalText_numText tg 0 ip fr u hip hfr hu1 hne]
  apply unmarshalGroups_congr_switch
  · rw [ht]
  · intro num
    rw [ht]

theorem whitespace_tolerance_witness :
    (allDigits "16".data ∧ fracDigits none ∧ (∀ c ∈ "MB".data, c.isAlpha = true) ∧
      "MB".data ≠ []) ∧
    ((ParseString Target.signBit "16 MB  ").1 = (ParseString Target.signBit "16MB").1 ∧
      errKind (ParseString Target.signBit "16 MB  ") =
        errKind (ParseString Target.signBit "16MB")) :=
  ⟨⟨by unfold allDigits; decide, trivial, by decide, by decide⟩,
    whitespace_tolerance Target.signBit "16".data none "MB".data 1 2
      (by unfold allDigits; decide) trivial (by decide) (by decide)⟩

/-- C19: for every byte size `b` (a uint64) whose `String` output contains no `.`,
`ParseString (b.String())` returns `b` with no error. -/
theorem integer_form_roundtrip (tg : Target) (b : Nat) (h64 : b < 2 ^ 64)
    (hdot : '.' ∉ (ByteSize.String b).data) :
    ParseString tg (ByteSize.String b) = (b, none) := by
  apply roundtrip_of_form tg 0 b h64
  intro j hj
  apply hdot
  rw [String_eq_render, hj]
  unfold render
  exact List.mem_append_left _ (dot_mem_fmtFloat2 _)

theorem integer_form_roundtrip_witness :
    (1020000 < 2 ^ 64 ∧ '.' ∉ (ByteSize.String 1020000).data) ∧
      ParseString Target.signBit (ByteSize.String 1020000) = (1020000, none) :=
  ⟨⟨by decide, by decide⟩,
    integer_form_roundtrip Target.signBit 1020000 (by decide) (by decide)⟩

/-- C20: for every integer `n < 2^53` written in decimal digits and every `k ≥ 1`,
`ParseString (n ++ k spaces)` succeeds with `n` bytes (`UnmarshalText` stores `n` whatever
the receiver held), whereas the same digits with no trailing space fail with `ErrSyntax`. -/
theorem empty_unit_through_spaces (tg : Target) (b0 n k : Nat) (hn : n < 2 ^ 53)
    (hk : 1 ≤ k) :
    ParseString tg ⟨fmtNat n ++ List.replicate k ' '⟩ = (n, none) ∧
      UnmarshalText tg b0 ⟨fmtNat n ++ List.replicate k ' '⟩ = (n, none) ∧
      ParseString tg ⟨fmtNat n⟩ = (0, some ⟨fnUnmarshalText, ⟨fmtNat n⟩, .ErrSyntax⟩) := by
  have key : ∀ b, UnmarshalText tg b ⟨fmtNat n ++ List.replicate k ' '⟩ = (n, none) := by
    intro b
    have h := unmarshal_exact_text tg b (fmtNat n) none (List.replicate k ' ')
      (["", "b", "byte"], B) n (fmtNat_digits n) trivial
      (by unfold hasDigit; exact fun h => fmtNat_ne_nil n h.1)
      (by
        intro c hc
        rw [List.eq_of_mem_replicate hc]
        decide)
      (by
        intro h
        rw [List.replicate_eq_nil_iff] at h
        omega)
      (by rw [TrimSpace_spaces]; decide)
      (by decide)
      (by rw [TrimSpace_spaces]; decide)
      (by
        rw [numNumer_fmtNat, numDenom_none]
        exact isFloat64_of_lt n hn)
      (by
        rw [numNumer_fmtNat, numDenom_none]
        rfl)
      (isFloat64_of_lt n hn)
      (lt_trans hn (by norm_num))
    rw [numText_none] at h
    exact h
  refine ⟨key 0, key b0, ?_⟩
  exact UnmarshalText_no_unit tg 0 ⟨fmtNat n⟩
    (fun c hc => digit_not_unit c (fmtNat_digits n c hc))

theorem empty_unit_through_spaces_witness :
    ((17 : Nat) < 2 ^ 53 ∧ 1 ≤ 2) ∧
      (ParseString Target.signBit "17  " = (17, none) ∧
        UnmarshalText Target.signBit 5 "17  " = (17, none) ∧
        ParseString Target.signBit "17" = (0, some ⟨fnUnmarshalText, "17", .ErrSyntax⟩)) :=
  ⟨⟨by decide, by decide⟩,
    empty_unit_through_spaces Target.signBit 5 17 2 (by decide) (by decide)⟩

theorem unknown_unit_rejected_counterexample :
    (∀ row ∈ aliasTable, (⟨ToLower (TrimSpace "kbs".data)⟩ : String) ∉ row.1) ∧
      UnmarshalText Target.signBit 0 ⟨List.replicate 310 '9' ++ "kbs".data⟩ =
        (0, some ⟨fnUnmarshalText, ⟨List.replicate 310 '9' ++ "kbs".data⟩, .ErrRange⟩) := by
  decide

/-- C12, amended: for every number text followed by a unit text of letters and spaces that,
after trimming and lower-casing, is not a spelling of the alias table, `UnmarshalText` fails
and leaves the receiver unchanged; the error is `ErrSyntax`, except that it is `ErrRange`
when `strconv.ParseFloat` reports the number as out of the float64 range. -/
theorem unknown_unit_rejected (tg : Target) (b : Nat) (ip : List Char)
    (fr : Option (List Char)) (u : List Char) (hip : allDigits ip) (hfr : fracDigits fr)
    (hu : allUnitChars u)
    (hunk : ∀ row ∈ aliasTable, (⟨ToLower (TrimSpace u)⟩ : String) ∉ row.1) :
    UnmarshalText tg b ⟨numText ip fr ++ u⟩ =
      (b, some ⟨fnUnmarshalText, ⟨numText ip fr ++ u⟩,
        if outOfFloatRange (numText ip fr) then .ErrRange else .ErrSyntax⟩) := by
  have hne : u ≠ [] := by
    intro h
    subst h
    exact hunk (["", "b", "byte"], B) (by decide) (by decide)
  rw [UnmarshalText_numText tg b ip fr u hip hfr hu hne]
  unfold unmarshalGroups
  have hn : numText ip fr = ip ++ fracText fr := rfl
  unfold outOfFloatRange
  rw [hn]
  cases hpf : ParseFloat (ip ++ fracText fr) with
  | error e =>
    cases e <;> simp
  | ok num =>
    dsimp only
    by_cases hr : (⟨TrimSpace u⟩ : String) ∈ reserved
    · rw [if_pos hr]
      simp
    · rw [if_neg hr, unitSwitch_unknown _ num hunk]
      simp

theorem unknown_unit_rejected_witness :
    (allDigits "1".data ∧ fracDigits (some "1".data) ∧ allUnitChars " giga bytes".data ∧
      (∀ row ∈ aliasTable, (⟨ToLower (TrimSpace " giga bytes".data)⟩ : String) ∉ row.1)) ∧
    UnmarshalText Target.signBit 7 "1.1 giga bytes" =
      (7, some ⟨fnUnmarshalText, "1.1 giga bytes", .ErrSyntax⟩) :=
  ⟨⟨by unfold allDigits; decide, by unfold fracDigits allDigits; decide,
      by unfold allUnitChars; decide, by decide⟩,
    unknown_unit_rejected Target.signBit 7 "1".data (some "1".data) " giga bytes".data
      (by unfold allDigits; decide) (by unfold fracDigits allDigits; decide)
      (by unfold allUnitChars; decide) (by decide)⟩

end datasize
